import Mathlib

/-!
Verification of the hypercube signature core (hash-based signatures over the
"top of the hypercube" encoding).

The Rust sources are embedded shallowly: machine integers (`usize`) become
`Nat` with explicit `< 2 ^ 64` range checks where the source converts a
big integer to `usize`, arbitrary-precision integers (`BigUint`) become plain
`Nat`, byte strings become `List Nat`, fallible functions return
`Except`/`Option`, and a `panic!`/failed `assert!` is modelled as `Option.none`
or an error value.  The hash primitive is an abstract parameter
`H : List Nat → List Nat`, following the specification which treats hashing as
an abstract oracle.
-/

/-- Bytes are modelled as lists of naturals (one per byte). -/
abbrev Bytes := List Nat

/-- `usize` overflow bound: a `BigUint → usize` conversion succeeds iff the
value is below `2 ^ 64`. -/
def usizeBound : Nat := 2 ^ 64

namespace Mapping

/-- Error type of `src/core/mapping.rs` (`enum MappingError`). -/
inductive MappingError where
  | invalidLayer (expected actual : Nat)
  | invalidCoordinate (position value max : Nat)
  | integerOverflow
  | indexOutOfRange (index max : Nat)
  deriving DecidableEq, Repr

/-- `binomial_coefficient` from `src/core/mapping.rs`: multiplicative form with
floor division at each step, after the symmetry reduction `k ← min k (n−k)`. -/
def binomial_coefficient (n k : Nat) : Nat :=
  if n < k then 0
  else if k = 0 ∨ k = n then 1
  else
    (List.range (min k (n - k))).foldl (fun result i => result * (n - i) / (i + 1)) 1

/-- `calculate_layer_size` from `src/core/mapping.rs`: the inclusion–exclusion
sum, accumulated left to right with `checked_sub(..).unwrap_or(0)` at each odd
step — i.e. truncated subtraction on the running sum, exactly as `Nat.sub`. -/
def calculate_layer_size (d v w : Nat) : Nat :=
  if v = 0 then (if d = 0 then 1 else 0)
  else if v * (w - 1) < d then 0
  else
    (List.range (d / w + 1)).foldl
      (fun sum s =>
        let binom_v_s := binomial_coefficient v s
        let inner_arg := d + v - 1 - s * w
        let binom_inner := if v - 1 ≤ inner_arg then binomial_coefficient inner_arg (v - 1) else 0
        let term := binom_v_s * binom_inner
        if s % 2 = 0 then sum + term else sum - term)
      0

end Mapping

namespace Layer

/-- `binomial` from `src/core/layer.rs`: separate numerator and denominator
products, one division at the end. -/
def binomial (n k : Nat) : Nat :=
  if n < k then 0
  else if k = 0 ∨ k = n then 1
  else
    let k' := min k (n - k)
    ((List.range k').foldl (fun num i => num * (n - i)) 1) /
      ((List.range k').foldl (fun den i => den * (i + 1)) 1)

/-- Step loop of `calculate_layer_size` in `src/core/layer.rs`.  `remaining`
counts the s-indices still to process; on an underflowing subtraction the
function returns 0 immediately (`return 0`), and at the end the `BigUint` is
parsed into `usize`, which yields 0 when the value does not fit
(`parse().unwrap_or(0)`). -/
def layerSizeGo (d v w : Nat) : Nat → Nat → Nat → Nat
  | 0, _, sum => if sum < usizeBound then sum else 0
  | remaining + 1, s, sum =>
    let inner := d + v - 1 - s * w
    if inner < v - 1 then layerSizeGo d v w remaining (s + 1) sum
    else
      let term := binomial v s * binomial inner (v - 1)
      if s % 2 = 0 then layerSizeGo d v w remaining (s + 1) (sum + term)
      else if term ≤ sum then layerSizeGo d v w remaining (s + 1) (sum - term)
      else 0

/-- `calculate_layer_size` from `src/core/layer.rs` (the `usize`-returning
variant used by the layer module). -/
def calculate_layer_size (d v w : Nat) : Nat :=
  if v = 0 then (if d = 0 then 1 else 0)
  else if v * (w - 1) < d then 0
  else layerSizeGo d v w (d / w + 1) 0 0

/-- `calculate_layer` from `src/core/layer.rs`: `d(x) = v·w − Σ xᵢ`. -/
def calculate_layer (vertex : List Nat) (w : Nat) : Nat :=
  vertex.length * w - vertex.sum

end Layer

/-- The exact layer size from the specification, as a recursive count: the
number of vectors `y ∈ {0,…,w−1}^v` with `Σ y = d`, equivalently the number of
layer-`d` vertices `x ∈ {1,…,w}^v` (via `yᵢ = w − xᵢ`).  This is the
specification-side definition of `ℓ_d(v,w)`, kept separate from the source's
`calculate_layer_size` so the two can be compared. -/
def layerCountSpec (w : Nat) : Nat → Nat → Nat
  | d, 0 => if d = 0 then 1 else 0
  | d, v + 1 =>
    ((List.range w).map (fun j => if j ≤ d then layerCountSpec w (d - j) v else 0)).sum

/-- The inclusion–exclusion alternating sum from the specification,
`ℓ_d = Σ_{s=0}^{⌊d/w⌋} (−1)^s · C(v,s) · C(d − s·w + v − 1, v − 1)`,
evaluated in `ℤ` with no truncation. -/
def layerSizeInt (d v w : Nat) : Int :=
  ∑ s ∈ Finset.range (d / w + 1),
    (-1 : Int) ^ s * (Nat.choose v s : Int) * (Nat.choose (d - s * w + v - 1) (v - 1) : Int)

namespace Mapping

/-- Candidate scan inside the position loop of `integer_to_vertex`
(`src/core/mapping.rs`, the `for j in j_min..=j_max` loop).  `rem` is
`remaining_dims`, `steps` the number of candidates left (`j_max + 1 − j`); when
the range is empty the loop body never runs and `j_i` keeps its initial value
`j`, hence the `.ok j` base case.  The error carries the original index `x` and
the clamped layer size, exactly as in the source. -/
def itvScan (w rem dI xI errIdx errMax : Nat) : Nat → Nat → Nat → Except MappingError Nat
  | 0, j, _ => .ok j
  | steps + 1, j, sumBefore =>
    let block := calculate_layer_size (dI - j) (rem - 1) w
    let sumIncluding := sumBefore + block
    if sumIncluding < usizeBound then
      if xI < sumIncluding then .ok j
      else if steps = 0 then .error (.indexOutOfRange errIdx errMax)
      else itvScan w rem dI xI errIdx errMax steps (j + 1) sumIncluding
    else .ok j

/-- Position loop of `integer_to_vertex`: `rem` is the number of coordinates
still to emit (`v − i`), `acc` the prefix built so far.  The `rem = 0` case
(only reachable from `v = 0`) indexes out of bounds in the source and is
modelled as an error. -/
def itvGo (w origD errIdx errMax : Nat) : Nat → Nat → Nat → List Nat → Except MappingError (List Nat)
  | 0, _, _, _ => .error .integerOverflow
  | 1, xI, dI, acc =>
    if w < xI + dI then .error (.indexOutOfRange errIdx errMax)
    else
      let vtx := acc ++ [w - xI - dI]
      let actual := vtx.length * w - vtx.sum
      if actual ≠ origD then .error (.invalidLayer origD actual) else .ok vtx
  | rem + 2, xI, dI, acc =>
    let jmin := if (w - 1) * (rem + 1) < dI then dI - (w - 1) * (rem + 1) else 0
    let jmax := min dI (w - 1)
    match itvScan w (rem + 2) dI xI errIdx errMax (jmax + 1 - jmin) jmin 0 with
    | .error e => .error e
    | .ok jI =>
      let sumToSubtract := ((List.range' jmin (jI - jmin)).map
        (fun j => calculate_layer_size (dI - j) (rem + 1) w)).sum
      let xNew := if sumToSubtract < usizeBound then xI - sumToSubtract else 0
      itvGo w origD errIdx errMax (rem + 1) xNew (dI - jI) (acc ++ [w - jI])

/-- `integer_to_vertex` from `src/core/mapping.rs` (the unrank map): entry
range check against the computed layer size when it fits in `usize`, then the
inverse walk. -/
def integer_to_vertex (x w v d : Nat) : Except MappingError (List Nat) :=
  let ls := calculate_layer_size d v w
  if ls < usizeBound ∧ ls ≤ x then .error (.indexOutOfRange x ls)
  else
    let errMax := if ls < usizeBound then ls else usizeBound - 1
    itvGo w d x errMax v x d []

/-- Coordinate validation loop of `vertex_to_integer`: the first coordinate
outside `[1, w]` produces `InvalidCoordinate`. -/
def checkCoords (w : Nat) : Nat → List Nat → Option MappingError
  | _, [] => none
  | i, c :: rest =>
    if c < 1 ∨ w < c then some (.invalidCoordinate i c w) else checkCoords w (i + 1) rest

/-- Backward position loop of `vertex_to_integer`: processes the coordinates
right to left (the argument list is the reversed prefix `a₀ … a_{v−2}`), with
`rem` the count of coordinates already consumed (`remaining_dims = v − i − 1`)
and state `(x, d_v)`. -/
def vtiGo (w : Nat) : List Nat → Nat → Nat × Nat → Nat × Nat
  | [], _, st => st
  | a :: rest, rem, (x, dV) =>
    let jI := w - a
    let dI := dV + jI
    let jmin := if (w - 1) * rem < dI then dI - (w - 1) * rem else 0
    let s := ((List.range' jmin (jI - jmin)).map (fun j => calculate_layer_size (dI - j) rem w)).sum
    vtiGo w rest (rem + 1) (x + s, dI)

/-- `vertex_to_integer` from `src/core/mapping.rs` (the rank map).  A length
mismatch yields `InvalidLayer(d, 0)` as in the source; an empty vertex
(`v = 0`) indexes out of bounds in the source and is modelled as an error. -/
def vertex_to_integer (vertex : List Nat) (w v d : Nat) : Except MappingError Nat :=
  if vertex.length ≠ v then .error (.invalidLayer d 0)
  else
    match checkCoords w 0 vertex with
    | some e => .error e
    | none =>
      match vertex.reverse with
      | [] => .error .integerOverflow
      | last :: revInit =>
        let st := vtiGo w revInit 1 (0, w - last)
        if st.2 ≠ d then .error (.invalidLayer d st.2)
        else if st.1 < usizeBound then .ok st.1
        else .error .integerOverflow

end Mapping

namespace HypercubeCore

/-- `Hypercube::calculate_layer` from `src/core/hypercube.rs`:
`d(x) = v·w − Σ xᵢ` with the hypercube's own dimension `v`. -/
def calculate_layer (w v : Nat) (vertex : List Nat) : Nat :=
  v * w - vertex.sum

/-- `Hypercube::is_valid_vertex`: length `v` and all components in `[1, w]`. -/
def is_valid_vertex (w v : Nat) (vertex : List Nat) : Bool :=
  vertex.length = v && vertex.all (fun x => 1 ≤ x && x ≤ w)

/-- `Hypercube::sink_vertex`: `(w, …, w)`. -/
def sink_vertex (w v : Nat) : List Nat :=
  List.replicate v w

end HypercubeCore

/-- The `value` computed by the encoders' common preamble: the first 8 bytes of
the hash, OR-ed in little-endian byte order (`value |= byte << (i*8)`). -/
def valueOfHash (hash : Bytes) : Nat :=
  ((hash.take 8).enum).foldl (fun v p => v ||| (p.2 <<< (p.1 * 8))) 0

namespace TSL

/-- `TSLConfig` from `src/schemes/tsl.rs`. -/
structure Config where
  w : Nat
  v : Nat
  d0 : Nat
  deriving DecidableEq, Repr

/-- `TSLConfig::with_params`: the constructor assertions (`w > 1`, `v > 0`,
`d0 ≤ v(w−1)`), a failed assertion modelled as `none`. -/
def Config.with_params (w v d0 : Nat) : Option Config :=
  if 1 < w ∧ 0 < v ∧ d0 ≤ v * (w - 1) then some ⟨w, v, d0⟩ else none

/-- The `TSL` struct: configuration plus the cached `BigUint` layer size. -/
structure Scheme where
  config : Config
  layer_size : Nat
  deriving DecidableEq, Repr

/-- `TSL::new`: caches `calculate_layer_size(d0, v, w)` and asserts it is
nonzero. -/
def Scheme.new (config : Config) : Option Scheme :=
  let ls := Mapping.calculate_layer_size config.d0 config.v config.w
  if ls = 0 then none else some ⟨config, ls⟩

/-- The `hash_input` computed in `TSL::map_to_layer` when the layer size
does not fit in `usize`: `wrapping_mul`/`wrapping_add` on `usize` become
multiplication and addition modulo `2^64`. -/
def hashMix (cfg : Config) (value : Nat) : Nat :=
  (((value * 2654435761 % usizeBound
      + cfg.d0 * 2246822507 % usizeBound) % usizeBound
      + cfg.v * 3266489917 % usizeBound) % usizeBound
      + cfg.w * 668265263 % usizeBound) % usizeBound

/-- The `mapped_index` of `TSL::map_to_layer`: modular reduction by the layer
size when it fits in `usize`, otherwise the hash-mix reduced modulo
`min(v·w, 10000)`. -/
def mappedIndex (t : Scheme) (value : Nat) : Nat :=
  if t.layer_size < usizeBound then value % t.layer_size
  else hashMix t.config (value % usizeBound) % (min (t.config.v * t.config.w) 10000)

/-- The final conservative attempt of `TSL::map_to_layer`: `integer_to_vertex`
at index 0. -/
def finalAttempt (t : Scheme) : Except Mapping.MappingError (List Nat) :=
  Mapping.integer_to_vertex 0 t.config.w t.config.v t.config.d0

/-- The retry loop of `TSL::map_to_layer`.  On `IndexOutOfRange` the index is
halved (up to 20 attempts, or a single attempt when the index reaches 0); on
any other error the index is decremented (giving up after 5 attempts); leaving
the loop falls through to `finalAttempt`.  The loop exits within 21 iterations,
so with fuel ≥ 21 the fuel-exhaustion case is unreachable; it is mapped to the
same fall-through. -/
def mapAttempts (t : Scheme) : Nat → Nat → Nat → Except Mapping.MappingError (List Nat)
  | 0, _, _ => finalAttempt t
  | fuel + 1, attempts, current =>
    match Mapping.integer_to_vertex current t.config.w t.config.v t.config.d0 with
    | .ok components => .ok components
    | .error (.indexOutOfRange _ _) =>
      if 20 < attempts + 1 then finalAttempt t
      else if current / 2 = 0 ∧ attempts + 1 = 1 then finalAttempt t
      else mapAttempts t fuel (attempts + 1) (current / 2)
    | .error e =>
      if 5 < attempts + 1 then .error e
      else mapAttempts t fuel (attempts + 1) (current - 1)

/-- `TSL::map_to_layer` from `src/schemes/tsl.rs`.  The inner
`layer_size_usize == 0` check is subsumed by the leading zero check, since a
nonzero `BigUint` converts to a nonzero `usize`. -/
def Scheme.map_to_layer (t : Scheme) (value : Nat) : Except Mapping.MappingError (List Nat) :=
  if t.layer_size = 0 then .error (.invalidLayer t.config.d0 0)
  else mapAttempts t 22 0 (mappedIndex t value)

/-- `TSL::encode` (the `Result`-returning inherent method): hash `m ‖ r`,
take the first 8 bytes as an integer, map to layer `d₀`. -/
def Scheme.encodeResult (t : Scheme) (H : Bytes → Bytes) (message randomness : Bytes) :
    Except Mapping.MappingError (List Nat) :=
  t.map_to_layer (valueOfHash (H (message ++ randomness)))

/-- `<TSL as EncodingScheme>::encode`: the trait implementation, which replaces
any error from the inherent `encode` by the sink vertex `(w, …, w)`
(`unwrap_or_else` fallback). -/
def Scheme.encodeScheme (t : Scheme) (H : Bytes → Bytes) (message randomness : Bytes) : List Nat :=
  match t.encodeResult H message randomness with
  | .ok components => components
  | .error _ => List.replicate t.config.v t.config.w

end TSL

namespace TopLayers

/-- The cumulative layer scan shared by `TL1C::map_to_top_layers` and
`TLFC::map_to_top_layers`: walk `d = 0, 1, …` accumulating layer sizes until
`index` falls inside layer `d`, returning the layer and the offset inside it.
Falling through every layer corresponds to the `panic!("Index out of range")`
at the end of the loop and is modelled as `none`. -/
def scanLayersGo (w v index : Nat) : Nat → Nat → Nat → Option (Nat × Nat)
  | 0, _, _ => none
  | remaining + 1, d, cumulative =>
    let layer_size := Mapping.calculate_layer_size d v w
    if index < cumulative + layer_size then some (d, index - cumulative)
    else scanLayersGo w v index remaining (d + 1) (cumulative + layer_size)

/-- Total size of the layers `0..=d0`, as accumulated by `TL1C::new` and
`TLFC::new`. -/
def totalLayerSize (w v d0 : Nat) : Nat :=
  ((List.range (d0 + 1)).map (fun d => Mapping.calculate_layer_size d v w)).sum

/-- The construction-time checks of `TL1C::new` / `TLFC::new`: every layer size
must fit in `usize` (`expect`), the running total must not overflow
(`checked_add().expect()`, equivalent to the final total fitting), and the
total must be positive (`assert!`). -/
def newChecks (w v d0 : Nat) : Bool :=
  ((List.range (d0 + 1)).map (fun d => Mapping.calculate_layer_size d v w)).all
      (fun ls => ls < usizeBound)
    && totalLayerSize w v d0 < usizeBound
    && 0 < totalLayerSize w v d0

/-- Body shared by `TL1C::map_to_top_layers` and `TLFC::map_to_top_layers`:
reduce `value` modulo the cached total, locate the layer, unrank within it,
replacing an unrank failure by the sink vertex (`unwrap_or_else`). -/
def mapToTopLayers (w v d0 total value : Nat) : Option (List Nat) :=
  let index := value % total
  match scanLayersGo w v index (d0 + 1) 0 0 with
  | none => none
  | some (d, layer_index) =>
    some (match Mapping.integer_to_vertex layer_index w v d with
      | .ok components => components
      | .error _ => List.replicate v w)

end TopLayers

namespace TL1C

/-- `TL1CConfig` from `src/schemes/tl1c.rs`. -/
structure Config where
  w : Nat
  v : Nat
  d0 : Nat
  deriving DecidableEq, Repr

/-- `TL1CConfig::with_params`: constructor assertions (`w > 1`, `v > 0`,
`d0 ≤ v(w−1)`, `d0 + 1 ≤ w`). -/
def Config.with_params (w v d0 : Nat) : Option Config :=
  if 1 < w ∧ 0 < v ∧ d0 ≤ v * (w - 1) ∧ d0 + 1 ≤ w then some ⟨w, v, d0⟩ else none

/-- The `TL1C` struct: configuration plus the cached total size of layers
`0..=d0`. -/
structure Scheme where
  config : Config
  total_layer_size : Nat
  deriving DecidableEq, Repr

/-- `TL1C::new`. -/
def Scheme.new (config : Config) : Option Scheme :=
  if TopLayers.newChecks config.w config.v config.d0
  then some ⟨config, TopLayers.totalLayerSize config.w config.v config.d0⟩
  else none

/-- `TL1C::calculate_checksum`: `C = d + 1`. -/
def calculate_checksum (layer : Nat) : Nat :=
  layer + 1

/-- `TL1C::map_to_top_layers`. -/
def Scheme.map_to_top_layers (t : Scheme) (value : Nat) : Option (List Nat) :=
  TopLayers.mapToTopLayers t.config.w t.config.v t.config.d0 t.total_layer_size value

/-- The private `TL1C::encode`: hash preamble then `map_to_top_layers`. -/
def Scheme.encode (t : Scheme) (H : Bytes → Bytes) (message randomness : Bytes) :
    Option (List Nat) :=
  t.map_to_top_layers (valueOfHash (H (message ++ randomness)))

/-- `TL1C::encode_with_checksum`: the encoded vertex together with
`C = layer + 1`, the layer computed from the emitted vertex. -/
def Scheme.encode_with_checksum (t : Scheme) (H : Bytes → Bytes) (message randomness : Bytes) :
    Option (List Nat × Nat) :=
  match t.encode H message randomness with
  | none => none
  | some vertex =>
    some (vertex, calculate_checksum (HypercubeCore.calculate_layer t.config.w t.config.v vertex))

/-- `TL1C::message_to_wots_digest`: `(a₁, …, aᵥ, C)`. -/
def Scheme.message_to_wots_digest (t : Scheme) (H : Bytes → Bytes) (message randomness : Bytes) :
    Option (List Nat) :=
  match t.encode_with_checksum H message randomness with
  | none => none
  | some (vertex, checksum) => some (vertex ++ [checksum])

end TL1C

namespace TLFC

/-- `TLFCConfig` from `src/schemes/tlfc.rs`. -/
structure Config where
  w : Nat
  v : Nat
  d0 : Nat
  c : Nat
  deriving DecidableEq, Repr

/-- `TLFCConfig::with_params`: constructor assertions (`w > 1`, `v > 0`,
`d0 ≤ v(w−1)`, `c > 0`, `c ≤ v`). -/
def Config.with_params (w v d0 c : Nat) : Option Config :=
  if 1 < w ∧ 0 < v ∧ d0 ≤ v * (w - 1) ∧ 0 < c ∧ c ≤ v then some ⟨w, v, d0, c⟩ else none

/-- The `TLFC` struct. -/
structure Scheme where
  config : Config
  total_layer_size : Nat
  deriving DecidableEq, Repr

/-- `TLFC::new`. -/
def Scheme.new (config : Config) : Option Scheme :=
  if TopLayers.newChecks config.w config.v config.d0
  then some ⟨config, TopLayers.totalLayerSize config.w config.v config.d0⟩
  else none

/-- `TLFC::calculate_full_checksum`: accumulate `2^(j mod c) · (w − aⱼ)` into
bucket `j mod c`, then map every bucket through `x ↦ (x mod w) + 1`. -/
def calculate_full_checksum (w c : Nat) (components : List Nat) : List Nat :=
  let raw := components.enum.foldl
    (fun acc p => acc.set (p.1 % c) (acc.getD (p.1 % c) 0 + 2 ^ (p.1 % c) * (w - p.2)))
    (List.replicate c 0)
  raw.map (fun x => x % w + 1)

/-- `TLFC::map_to_top_layers`. -/
def Scheme.map_to_top_layers (t : Scheme) (value : Nat) : Option (List Nat) :=
  TopLayers.mapToTopLayers t.config.w t.config.v t.config.d0 t.total_layer_size value

/-- The private `TLFC::encode`. -/
def Scheme.encode (t : Scheme) (H : Bytes → Bytes) (message randomness : Bytes) :
    Option (List Nat) :=
  t.map_to_top_layers (valueOfHash (H (message ++ randomness)))

/-- `TLFC::encode_with_checksum`. -/
def Scheme.encode_with_checksum (t : Scheme) (H : Bytes → Bytes) (message randomness : Bytes) :
    Option (List Nat × List Nat) :=
  match t.encode H message randomness with
  | none => none
  | some vertex => some (vertex, calculate_full_checksum t.config.w t.config.c vertex)

/-- `TLFC::message_to_wots_digest`: `(a₁, …, aᵥ, C₁, …, C_c)`. -/
def Scheme.message_to_wots_digest (t : Scheme) (H : Bytes → Bytes) (message randomness : Bytes) :
    Option (List Nat) :=
  match t.encode_with_checksum H message randomness with
  | none => none
  | some (vertex, checksums) => some (vertex ++ checksums)

end TLFC

namespace Wots

/-- `WotsParams` from `src/wots/mod.rs`. -/
structure Params where
  w : Nat
  chains : Nat
  deriving DecidableEq, Repr

/-- `WotsParams::new`: constructor assertions (`w > 1`, `chains > 0`). -/
def Params.new (w chains : Nat) : Option Params :=
  if 1 < w ∧ 0 < chains then some ⟨w, chains⟩ else none

/-- `hash_chain` from `src/wots/mod.rs`: `H^k(x)`, with `H^0(x) = x`. -/
def hash_chain (H : Bytes → Bytes) (input : Bytes) : Nat → Bytes
  | 0 => input
  | k + 1 => H (hash_chain H input k)

/-- `WotsPublicKey` from `src/wots/mod.rs`. -/
structure PublicKey where
  chains : List Bytes
  params : Params
  deriving DecidableEq, Repr

/-- `WotsPublicKey::verify`: length checks return `false`, then every chain is
completed with `H^(w−1−xᵢ)` and compared byte-wise; a digit at or above `w`
returns `false`.  The source indexes `self.chains[i]` unchecked; the embedding
uses a default on out-of-range access, which agrees with the source whenever
the public key has `chains` many elements. -/
def PublicKey.verify (H : Bytes → Bytes) (pk : PublicKey) (message_digest : List Nat)
    (signature : List Bytes) : Bool :=
  if message_digest.length ≠ pk.params.chains then false
  else if signature.length ≠ pk.params.chains then false
  else (List.range pk.params.chains).all fun i =>
    let x_i := message_digest.getD i 0
    if pk.params.w ≤ x_i then false
    else hash_chain H (signature.getD i []) (pk.params.w - 1 - x_i) = pk.chains.getD i []

/-- `WotsKeypair::sign_raw`: the two `assert!`s (digest length, digit range)
are modelled as `none`; otherwise `σᵢ = H^(xᵢ)(skᵢ)`. -/
def sign_raw (H : Bytes → Bytes) (params : Params) (sk_chains : List Bytes)
    (message_digest : List Nat) : Option (List Bytes) :=
  if message_digest.length ≠ params.chains then none
  else if ¬ message_digest.all (fun x => x < params.w) then none
  else some ((List.range params.chains).map fun i =>
    hash_chain H (sk_chains.getD i []) (message_digest.getD i 0))

/-- Public key derivation used by `WotsKeypair::generate` and the
deterministic XMSS key generation: `pkᵢ = H^(w−1)(skᵢ)`. -/
def publicFromSecret (H : Bytes → Bytes) (w : Nat) (sk_chains : List Bytes) : List Bytes :=
  sk_chains.map fun sk => hash_chain H sk (w - 1)

end Wots

/-- Big-endian bytes of a value truncated to `u32`
(`(n as u32).to_be_bytes()`). -/
def be32 (n : Nat) : Bytes :=
  [n / 2 ^ 24 % 256, n / 2 ^ 16 % 256, n / 2 ^ 8 % 256, n % 256]

namespace Merkle

/-- `hash_tree_node` from `src/xmss/tree.rs`: prefix byte `0x01`, public seed,
big-endian height and index, then the two children. -/
def hash_tree_node (H : Bytes → Bytes) (public_seed : Bytes) (height index : Nat)
    (left right : Bytes) : Bytes :=
  H ([1] ++ public_seed ++ be32 height ++ be32 index ++ left ++ right)

/-- One level-combining pass of `MerkleTree::build`: node `i` of the next level
hashes children `2i` and `2i+1` of the current level. -/
def combine (H : Bytes → Bytes) (public_seed : Bytes) (h : Nat) (level : List Bytes) :
    List Bytes :=
  (List.range (level.length / 2)).map fun i =>
    hash_tree_node H public_seed h i (level.getD (2 * i) []) (level.getD (2 * i + 1) [])

/-- Builds the levels list bottom-up: `levels[h]` is the list of nodes at
height `h`. -/
def buildLevels (H : Bytes → Bytes) (public_seed : Bytes) : Nat → Nat → List Bytes →
    List (List Bytes)
  | 0, _, level => [level]
  | k + 1, h, level => level :: buildLevels H public_seed k (h + 1) (combine H public_seed h level)

/-- `MerkleTree` from `src/xmss/tree.rs`. -/
structure Tree where
  nodes : List (List Bytes)
  height : Nat
  deriving DecidableEq, Repr

/-- `MerkleTree::build`: the height is `⌈log₂(leaves.len())⌉` (the `f64`
`log2().ceil()` of the source), and the `assert_eq!` demanding exactly
`2^height` leaves is modelled as `none`. -/
def Tree.build (H : Bytes → Bytes) (leaves : List Bytes) (public_seed : Bytes) : Option Tree :=
  let height := Nat.clog 2 leaves.length
  if leaves.length ≠ 2 ^ height then none
  else some ⟨buildLevels H public_seed height 0 leaves, height⟩

/-- `MerkleTree::root`. -/
def Tree.root (t : Tree) : Bytes :=
  (t.nodes.getD t.height []).getD 0 []

/-- Sibling collection of `MerkleTree::authentication_path`: at each height the
sibling `index ^ 1` is pushed and the index is halved.  An out-of-range access
(`self.nodes[h][sibling_index]` panicking) is modelled as `none`. -/
def authPathGo (nodes : List (List Bytes)) : Nat → Nat → Nat → Option (List Bytes)
  | 0, _, _ => some []
  | k + 1, h, index =>
    match (nodes.getD h []).get? (index ^^^ 1) with
    | none => none
    | some node =>
      match authPathGo nodes k (h + 1) (index / 2) with
      | none => none
      | some rest => some (node :: rest)

/-- `MerkleTree::authentication_path`. -/
def Tree.authentication_path (t : Tree) (leaf_index : Nat) : Option (List Bytes) :=
  authPathGo t.nodes t.height 0 leaf_index

end Merkle

namespace BaseW

/-- Inner `while` of `base_w_from_bytes` (`src/xmss/wots_plus.rs`): while
`bits ≥ log_w` and fewer than `out_len` digits have been produced, emit
`total & w_mask` and shift.  The fuel is the entry value of `bits`; since
`log_w ≥ 1` for every constructible parameter set, the loop consumes at least
one bit per iteration and the fuel never runs out. -/
def inner (log_w w_mask out_len : Nat) : Nat → Nat → Nat → List Nat → Nat × Nat × List Nat
  | 0, total, bits, acc => (total, bits, acc)
  | fuel + 1, total, bits, acc =>
    if log_w ≤ bits ∧ acc.length < out_len then
      inner log_w w_mask out_len fuel (total >>> log_w) (bits - log_w)
        (acc ++ [total &&& w_mask])
    else (total, bits, acc)

/-- Byte loop of `base_w_from_bytes`: OR the next byte above the pending bits,
run the inner loop, stop early once `out_len` digits exist. -/
def overBytes (log_w w_mask out_len : Nat) : List Nat → Nat → Nat → List Nat →
    Nat × Nat × List Nat
  | [], total, bits, acc => (total, bits, acc)
  | b :: rest, total, bits, acc =>
    let st := inner log_w w_mask out_len (bits + 8) (total ||| (b <<< bits)) (bits + 8) acc
    if out_len ≤ st.2.2.length then st
    else overBytes log_w w_mask out_len rest st.1 st.2.1 st.2.2

/-- Padding loop of `base_w_from_bytes`: while digits are missing, emit from
the pending bits if any remain (`bits > 0`), else emit `0`. -/
def pad (log_w w_mask : Nat) : Nat → Nat → Nat → List Nat → List Nat
  | 0, _, _, acc => acc
  | needed + 1, total, bits, acc =>
    if 0 < bits then
      pad log_w w_mask needed (total >>> log_w) (bits - log_w) (acc ++ [total &&& w_mask])
    else pad log_w w_mask needed total bits (acc ++ [0])

/-- `base_w_from_bytes` from `src/xmss/wots_plus.rs` (the identical copy in
`src/xmss/core.rs` is not embedded separately): `log_w` is
`⌊log₂ w⌋` (`(w as f64).log2() as u32`) and `w_mask = 2^log_w − 1`. -/
def base_w_from_bytes (bytes : List Nat) (w out_len : Nat) : List Nat :=
  let log_w := Nat.log 2 w
  let w_mask := 2 ^ log_w - 1
  let st := overBytes log_w w_mask out_len bytes 0 0 []
  pad log_w w_mask (out_len - st.2.2.length) st.1 st.2.1 st.2.2

end BaseW

namespace Xmss

/-- `XMSSParams` from `src/xmss/core.rs`. -/
structure Params where
  tree_height : Nat
  winternitz_parameter : Nat
  len : Nat
  use_hypercube : Bool
  deriving DecidableEq, Repr

/-- `XMSSParams::new`: constructor assertions (`tree_height > 0`, `w > 1`,
`len > 0`); `use_hypercube` is `false` on this path. -/
def Params.new (tree_height winternitz_parameter len : Nat) : Option Params :=
  if 0 < tree_height ∧ 1 < winternitz_parameter ∧ 0 < len
  then some ⟨tree_height, winternitz_parameter, len, false⟩ else none

/-- `XMSSPrivateKey` state (the `_wots_keys` field is always empty and
omitted). -/
structure PrivateKey where
  leaf_index : Nat
  sk_seed : Bytes
  sk_prf : Bytes
  public_seed : Bytes
  root : Bytes
  deriving DecidableEq, Repr

/-- `XMSSSignature` from `src/xmss/signature.rs`. -/
structure Signature where
  leaf_index : Nat
  randomness : Bytes
  wots_signature : List Bytes
  auth_path : List Bytes
  deriving DecidableEq, Repr

/-- Deterministic per-leaf WOTS secret chains of
`WOTSPlusParams::generate_deterministic_keypair`:
`skᵢ = H(seed ‖ address ‖ i)`. -/
def deterministicSk (H : Bytes → Bytes) (chains : Nat) (seed address : Bytes) : List Bytes :=
  (List.range chains).map fun i => H (seed ++ address ++ be32 i)

/-- `WOTSPlusKeypair::public_key_hash`: hash of the concatenated public-key
chains. -/
def public_key_hash (H : Bytes → Bytes) (pk_chains : List Bytes) : Bytes :=
  H pk_chains.flatten

/-- The Merkle leaves generated by `XMSSKeypair::sign` (and key generation):
leaf `i` is the public-key hash of the deterministic WOTS keypair at address
`i`. -/
def leafList (H : Bytes → Bytes) (params : Params) (sk_seed : Bytes) : List Bytes :=
  (List.range (2 ^ params.tree_height)).map fun i =>
    public_key_hash H
      (Wots.publicFromSecret H params.winternitz_parameter
        (deterministicSk H params.len sk_seed (be32 i)))

/-- `XMSSKeypair::sign` (the non-hypercube path taken by `XMSSParams::new`):
refuses with a panic (`none`) once `leaf_index` reaches `2^tree_height`,
otherwise derives the randomness and message digest, WOTS-signs the base-w
digits with the leaf's deterministic key, rebuilds the tree for the
authentication path, embeds the pre-increment index in the signature and
increments the private state's index. -/
def sign (H : Bytes → Bytes) (params : Params) (priv : PrivateKey) (message : Bytes) :
    Option (Signature × PrivateKey) :=
  let leaf_idx := priv.leaf_index
  if 2 ^ params.tree_height ≤ leaf_idx then none
  else
    let randomness := H (priv.sk_prf ++ be32 leaf_idx ++ message)
    let message_digest := H (randomness ++ priv.root ++ be32 leaf_idx ++ message)
    let wparams : Wots.Params := ⟨params.winternitz_parameter, params.len⟩
    let sk_chains := deterministicSk H params.len priv.sk_seed (be32 leaf_idx)
    let digest_values := BaseW.base_w_from_bytes message_digest params.winternitz_parameter
      params.len
    match Wots.sign_raw H wparams sk_chains digest_values with
    | none => none
    | some wots_sig =>
      match Merkle.Tree.build H (leafList H params priv.sk_seed) priv.public_seed with
      | none => none
      | some tree =>
        match tree.authentication_path leaf_idx with
        | none => none
        | some auth =>
          some (⟨leaf_idx, randomness, wots_sig, auth⟩, { priv with leaf_index := leaf_idx + 1 })

/-- Repeated signing: feed a list of messages through `sign`, threading the
private state; `none` as soon as one call refuses. -/
def signAll (H : Bytes → Bytes) (params : Params) : PrivateKey → List Bytes → Option PrivateKey
  | priv, [] => some priv
  | priv, m :: ms =>
    match sign H params priv m with
    | none => none
    | some (_, priv') => signAll H params priv' ms

end Xmss

/-! ## Theorems -/

/-- **C1.**  The claimed statement — `integer_to_vertex` and
`vertex_to_integer` are mutually inverse bijections between `[0, ℓ_d)` and the
layer-`d` vertices for every valid `(w, v, d)` — fails on the code: at
`w = 2, v = 5, d = 4` the exact layer size is `ℓ_4 = 5`, yet unranking the
in-range index `i = 1` does not produce a vertex at all; it fails with
`IndexOutOfRange` (the clamped inclusion–exclusion sum corrupts the
sub-layer sizes used by the walk), so the round trip cannot return `1`. -/
theorem unrank_rejects_rank_inside_exact_layer :
    layerCountSpec 2 4 5 = 5 ∧
    (1 : Nat) < 5 ∧
    Mapping.integer_to_vertex 1 2 5 4 =
      .error (.indexOutOfRange 1 10) ∧
    (Mapping.integer_to_vertex 1 2 5 4).bind
      (fun a => Mapping.vertex_to_integer a 2 5 4) ≠ .ok 1 := by
  refine ⟨by decide, by decide, by rfl, ?_⟩
  intro h
  rw [show Mapping.integer_to_vertex 1 2 5 4 =
    .error (.indexOutOfRange 1 10) from rfl] at h
  exact Except.noConfusion h

/-- **C8.**  The claimed statement — `integer_to_vertex(r, w, v, d)` fails
with `IndexOutOfRange` for every `r ≥ ℓ_d` and never returns a vertex for such
`r` — fails on the code: at `w = 2, v = 5, d = 4` the exact layer size is
`ℓ_4 = 5`, but the rank `r = 6 ≥ 5` passes the (corrupted) entry bound of 10
and the walk returns the vertex `(1, 2, 1, 1, 1)`. -/
theorem unrank_returns_vertex_beyond_exact_layer :
    layerCountSpec 2 4 5 = 5 ∧
    (5 : Nat) ≤ 6 ∧
    Mapping.integer_to_vertex 6 2 5 4 = .ok [1, 2, 1, 1, 1] ∧
    Mapping.calculate_layer_size 4 5 2 = 10 := by
  exact ⟨by decide, by decide, by rfl, by decide⟩

/-- **C3.**  The claimed exactness and big-integer arithmetic of the layer-size
path fail on the code.  At `(d, v, w) = (6, 6, 2)` the exact count is
`ℓ_6 = 1` (also by the untruncated inclusion–exclusion sum), but
`src/core/layer.rs` returns 0 (it aborts on the first underflowing
subtraction) and `src/core/mapping.rs` returns 295 (it clamps the running sum
at zero and keeps accumulating).  Moreover for the paper parameters
`(w, v, d₀) = (86, 25, 384)` the layer size exceeds `2^64`; there
`src/core/layer.rs` collapses to 0 (failed `usize` parse), and the TSL mapping
reduces the incoming value into `[0, min(v·w, 10000)) = [0, 2150)` by a
wrapping hash mix rather than reducing modulo `ℓ_{d₀}` with big-integer
arithmetic. -/
theorem layer_size_counters_diverge_from_exact :
    layerCountSpec 2 6 6 = 1 ∧
    layerSizeInt 6 6 2 = 1 ∧
    Layer.calculate_layer_size 6 6 2 = 0 ∧
    Mapping.calculate_layer_size 6 6 2 = 295 ∧
    usizeBound ≤ Mapping.calculate_layer_size 384 25 86 ∧
    Layer.calculate_layer_size 384 25 86 = 0 ∧
    TSL.Scheme.new ⟨86, 25, 384⟩ =
      some ⟨⟨86, 25, 384⟩, Mapping.calculate_layer_size 384 25 86⟩ ∧
    (∀ value : Nat,
      TSL.mappedIndex ⟨⟨86, 25, 384⟩, Mapping.calculate_layer_size 384 25 86⟩ value < 2150) := by
  refine ⟨by decide, by decide, by decide, by decide, by decide, by decide, by decide, ?_⟩
  intro value
  have hbig : ¬ Mapping.calculate_layer_size 384 25 86 < usizeBound := by decide
  unfold TSL.mappedIndex
  simp only [hbig, if_false]
  have h2150 : min (25 * 86) 10000 = 2150 := by decide
  rw [h2150]
  exact Nat.mod_lt _ (by decide)

/-- Helper: reading a mapped range at an in-range index. -/
theorem getD_map_range {α : Type} (f : Nat → α) (dflt : α) {i n : Nat} (h : i < n) :
    ((List.range n).map f).getD i dflt = f i := by
  rw [List.getD_eq_getElem?_getD, List.getElem?_map, List.getElem?_range h]
  rfl

/-- Helper: `getD` of an in-range index is a member of the list. -/
theorem getD_mem {α : Type} (l : List α) (dflt : α) {i : Nat} (h : i < l.length) :
    l.getD i dflt ∈ l := by
  rw [List.getD_eq_getElem?_getD, List.getElem?_eq_getElem h]
  exact List.getElem_mem h

/-- Helper: hash-chain composition `H^(a+b)(x) = H^b(H^a(x))`. -/
theorem hash_chain_add (H : Bytes → Bytes) (x : Bytes) (a b : Nat) :
    Wots.hash_chain H x (a + b) = Wots.hash_chain H (Wots.hash_chain H x a) b := by
  induction b with
  | zero => rfl
  | succ b ih => rw [← Nat.add_assoc, Wots.hash_chain, Wots.hash_chain, ih]

/-- **C4.**  WOTS sign/verify round-trip in the 0-indexed convention: for any
key material of `L` chains with `w ≥ 2`, any digit vector of length `L` with
digits in `[0, w−1]` signs successfully (`σᵢ = H^(aᵢ)(skᵢ)`), the signature
verifies against `pkᵢ = H^(w−1)(skᵢ)`, and verification of any candidate
signature of the right length returns `true` iff `H^(w−1−aᵢ)(σᵢ) = pkᵢ`
holds byte-wise for every chain. -/
theorem wots_sign_verify (H : Bytes → Bytes) (w L : Nat) (hw : 1 < w)
    (sk_chains : List Bytes) (hsk : sk_chains.length = L)
    (digits : List Nat) (hlen : digits.length = L)
    (hdig : ∀ x ∈ digits, x < w) :
    ∃ σ, Wots.sign_raw H ⟨w, L⟩ sk_chains digits = some σ ∧
      Wots.PublicKey.verify H ⟨Wots.publicFromSecret H w sk_chains, ⟨w, L⟩⟩ digits σ = true ∧
      ∀ σ' : List Bytes, σ'.length = L →
        (Wots.PublicKey.verify H ⟨Wots.publicFromSecret H w sk_chains, ⟨w, L⟩⟩ digits σ' = true ↔
          ∀ i, i < L → Wots.hash_chain H (σ'.getD i []) (w - 1 - digits.getD i 0) =
            (Wots.publicFromSecret H w sk_chains).getD i []) := by
  have hdigD : ∀ i, i < L → digits.getD i 0 < w := by
    intro i hi
    exact hdig _ (getD_mem digits 0 (hlen ▸ hi))
  have hpkD : ∀ i, i < L →
      (Wots.publicFromSecret H w sk_chains).getD i [] =
        Wots.hash_chain H (sk_chains.getD i []) (w - 1) := by
    intro i hi
    unfold Wots.publicFromSecret
    rw [List.getD_eq_getElem?_getD, List.getElem?_map,
      List.getElem?_eq_getElem (by rw [hsk]; exact hi)]
    rw [List.getD_eq_getElem?_getD, List.getElem?_eq_getElem (by rw [hsk]; exact hi)]
    rfl
  have hverify : ∀ σ' : List Bytes, σ'.length = L →
      (Wots.PublicKey.verify H ⟨Wots.publicFromSecret H w sk_chains, ⟨w, L⟩⟩ digits σ' = true ↔
        ∀ i, i < L → Wots.hash_chain H (σ'.getD i []) (w - 1 - digits.getD i 0) =
          (Wots.publicFromSecret H w sk_chains).getD i []) := by
    intro σ' hσ'
    unfold Wots.PublicKey.verify
    simp only [hlen, hσ', ne_eq, not_true_eq_false, if_false, List.all_eq_true, List.mem_range]
    constructor
    · intro hall i hi
      have := hall i hi
      simp only [not_le.mpr (hdigD i hi), if_false, decide_eq_true_eq] at this
      exact this
    · intro heq i hi
      simp only [not_le.mpr (hdigD i hi), if_false, decide_eq_true_eq]
      exact heq i hi
  refine ⟨(List.range L).map fun i =>
      Wots.hash_chain H (sk_chains.getD i []) (digits.getD i 0), ?_, ?_, hverify⟩
  · unfold Wots.sign_raw
    simp only [hlen, ne_eq, not_true_eq_false, if_false]
    rw [if_neg]
    simp only [not_not, List.all_eq_true, decide_eq_true_eq]
    intro x hx
    exact hdig x hx
  · rw [hverify _ (by simp)]
    intro i hi
    rw [getD_map_range _ _ hi, hpkD i hi, ← hash_chain_add]
    congr 1
    have := hdigD i hi
    omega

/-- **C4 witness.**  The round-trip theorem instantiated at `w = 2`, two
chains, concrete key material and digits `(1, 0)`. -/
theorem wots_sign_verify_witness :
    ∃ σ, Wots.sign_raw (fun x => x ++ [0]) ⟨2, 2⟩ [[1], [2]] [1, 0] = some σ ∧
      Wots.PublicKey.verify (fun x => x ++ [0])
        ⟨Wots.publicFromSecret (fun x => x ++ [0]) 2 [[1], [2]], ⟨2, 2⟩⟩ [1, 0] σ = true ∧
      ∀ σ' : List Bytes, σ'.length = 2 →
        (Wots.PublicKey.verify (fun x => x ++ [0])
            ⟨Wots.publicFromSecret (fun x => x ++ [0]) 2 [[1], [2]], ⟨2, 2⟩⟩ [1, 0] σ' = true ↔
          ∀ i, i < 2 → Wots.hash_chain (fun x => x ++ [0]) (σ'.getD i [])
              (2 - 1 - [1, 0].getD i 0) =
            (Wots.publicFromSecret (fun x => x ++ [0]) 2 [[1], [2]]).getD i []) :=
  wots_sign_verify (fun x => x ++ [0]) 2 2 (by decide) [[1], [2]] (by decide) [1, 0]
    (by decide) (by decide)

/-- **C9 counterexample.**  `WotsPublicKey::verify` returns plain `false` — not
a typed error — on malformed inputs.  With a concrete key (`w = 4`, 2 chains):
a digit vector of the wrong length returns `false`, a digit out of range
(`4 ≥ w`) returns `false`, and a well-formed but invalid signature also
returns `false`; the three cases are indistinguishable.  (No
`DigitOutOfRange`/`LengthMismatch` type exists anywhere in the WOTS module.) -/
theorem wots_verify_no_typed_error :
    Wots.PublicKey.verify (fun _ => [7]) ⟨[[1], [2]], ⟨4, 2⟩⟩ [0] [[0], [0]] = false ∧
    Wots.PublicKey.verify (fun _ => [7]) ⟨[[1], [2]], ⟨4, 2⟩⟩ [4, 0] [[0], [0]] = false ∧
    Wots.PublicKey.verify (fun _ => [7]) ⟨[[1], [2]], ⟨4, 2⟩⟩ [0, 0] [[9], [9]] = false := by
  refine ⟨by rfl, by rfl, by rfl⟩

/-- **C9 amended.**  Verification does not distinguish malformed inputs from
invalid signatures: any length mismatch among digit vector, signature chains
and the configured chain count, and any digit at or above `w`, make `verify`
return the same plain `false` that invalid signatures produce; the only
malformed-input signalling in the WOTS module is the panic of `sign_raw`
(modelled as `none`). -/
theorem wots_verify_malformed_is_false (H : Bytes → Bytes) (pk : Wots.PublicKey)
    (sk_chains : List Bytes) (digest : List Nat) (signature : List Bytes)
    (h : digest.length ≠ pk.params.chains ∨ signature.length ≠ pk.params.chains ∨
      ∃ i, i < pk.params.chains ∧ pk.params.w ≤ digest.getD i 0) :
    Wots.PublicKey.verify H pk digest signature = false ∧
    (digest.length ≠ pk.params.chains ∨ (∃ x ∈ digest, pk.params.w ≤ x) →
      Wots.sign_raw H pk.params sk_chains digest = none) := by
  constructor
  · unfold Wots.PublicKey.verify
    by_cases h1 : digest.length = pk.params.chains
    · rw [if_neg (not_not_intro h1)]
      by_cases h2 : signature.length = pk.params.chains
      · rw [if_neg (not_not_intro h2)]
        rcases h with h | h | ⟨i, hi, hwle⟩
        · exact absurd h1 h
        · exact absurd h2 h
        · rw [Bool.eq_false_iff]
          intro hall
          rw [List.all_eq_true] at hall
          have := hall i (List.mem_range.mpr hi)
          simp only [if_pos hwle] at this
          exact Bool.false_ne_true this
      · rw [if_pos h2]
    · rw [if_pos h1]
  · intro hmal
    unfold Wots.sign_raw
    by_cases h1 : digest.length = pk.params.chains
    · rw [if_neg (not_not_intro h1)]
      rcases hmal with hmal | ⟨x, hx, hwle⟩
      · exact absurd h1 hmal
      · rw [if_pos]
        simp only [List.all_eq_true, decide_eq_true_eq, not_forall]
        exact ⟨x, hx, not_lt.mpr hwle⟩
    · rw [if_pos h1]

/-- **C9 witness (amended claim).**  The amended statement instantiated at a
concrete malformed input: digit vector of length 1 against a 2-chain key. -/
theorem wots_verify_malformed_is_false_witness :
    Wots.PublicKey.verify (fun _ => [7]) ⟨[[1], [2]], ⟨4, 2⟩⟩ [0] [[3], [3]] = false ∧
    ([0].length ≠ (2 : Nat) ∨ (∃ x ∈ [0], (4 : Nat) ≤ x) →
      Wots.sign_raw (fun _ => [7]) ⟨4, 2⟩ [[5], [6]] [0] = none) :=
  wots_verify_malformed_is_false (fun _ => [7]) ⟨[[1], [2]], ⟨4, 2⟩⟩ [[5], [6]] [0] [[3], [3]]
    (Or.inl (by decide))

/-- Helper: a successful unrank walk extends the accumulator by exactly the
remaining number of coordinates and passes the final layer check. -/
theorem itvGo_ok (w origD e1 e2 : Nat) :
    ∀ rem x d acc vtx, Mapping.itvGo w origD e1 e2 rem x d acc = .ok vtx →
      vtx.length = acc.length + rem ∧ vtx.length * w - vtx.sum = origD := by
  intro rem
  induction rem using Nat.twoStepInduction with
  | zero =>
    intro x d acc vtx h
    exact absurd h (by simp [Mapping.itvGo])
  | one =>
    intro x d acc vtx h
    unfold Mapping.itvGo at h
    by_cases h1 : w < x + d
    · rw [if_pos h1] at h
      exact absurd h (by simp)
    · rw [if_neg h1] at h
      by_cases h2 : (acc ++ [w - x - d]).length * w - (acc ++ [w - x - d]).sum ≠ origD
      · rw [if_pos h2] at h
        exact absurd h (by simp)
      · rw [if_neg h2] at h
        rw [not_not] at h2
        cases h
        simpa using h2
  | more rem ih1 ih2 =>
    intro x d acc vtx h
    unfold Mapping.itvGo at h
    dsimp only at h
    split at h
    next e heq => exact absurd h (by simp)
    next jI heq =>
      have := ih2 _ _ (acc ++ [w - jI]) vtx h
      constructor
      · rw [this.1]
        simp only [List.length_append, List.length_cons, List.length_nil]
        omega
      · exact this.2

/-- Helper: a successful unrank yields a vector of length `v` in layer `d`. -/
theorem integer_to_vertex_ok (x w v d : Nat) (a : List Nat)
    (h : Mapping.integer_to_vertex x w v d = .ok a) :
    a.length = v ∧ v * w - a.sum = d := by
  unfold Mapping.integer_to_vertex at h
  dsimp only at h
  split at h
  · exact absurd h (by simp)
  · have := itvGo_ok w d x _ v x d [] a h
    refine ⟨by simpa using this.1, ?_⟩
    have h1 := this.1
    have h2 := this.2
    simp only [List.length_nil, Nat.zero_add] at h1
    rw [h1] at h2
    exact h2

/-- Helper: the cumulative layer scan lands in some layer whenever the index
is below the cumulative total of the remaining layer sizes. -/
theorem scanLayersGo_lands (w v : Nat) :
    ∀ remaining index dStart cumulative,
      cumulative ≤ index →
      index < cumulative +
        ((List.range remaining).map
          (fun t => Mapping.calculate_layer_size (dStart + t) v w)).sum →
      ∃ d li, TopLayers.scanLayersGo w v index remaining dStart cumulative = some (d, li) ∧
        dStart ≤ d ∧ d < dStart + remaining ∧
        li < Mapping.calculate_layer_size d v w := by
  intro remaining
  induction remaining with
  | zero =>
    intro index dStart cumulative hle hlt
    simp only [List.range_zero, List.map_nil, List.sum_nil, Nat.add_zero] at hlt
    omega
  | succ remaining ih =>
    intro index dStart cumulative hle hlt
    unfold TopLayers.scanLayersGo
    dsimp only
    by_cases hhit : index < cumulative + Mapping.calculate_layer_size dStart v w
    · rw [if_pos hhit]
      exact ⟨dStart, index - cumulative, rfl, Nat.le_refl _, by omega, by omega⟩
    · rw [if_neg hhit]
      have hsum : ((List.range (remaining + 1)).map
          (fun t => Mapping.calculate_layer_size (dStart + t) v w)).sum =
          Mapping.calculate_layer_size dStart v w +
          ((List.range remaining).map
            (fun t => Mapping.calculate_layer_size (dStart + 1 + t) v w)).sum := by
        rw [List.range_succ_eq_map]
        simp only [List.map_cons, List.sum_cons, Nat.add_zero, List.map_map]
        have hmaps : List.map ((fun t => Mapping.calculate_layer_size (dStart + t) v w) ∘
            Nat.succ) (List.range remaining) =
            List.map (fun t => Mapping.calculate_layer_size (dStart + 1 + t) v w)
              (List.range remaining) := by
          apply List.map_congr_left
          intro t _
          simp only [Function.comp_apply]
          congr 1
          omega
        rw [hmaps]
      obtain ⟨d, li, heq, hd1, hd2, hli⟩ := ih index (dStart + 1)
        (cumulative + Mapping.calculate_layer_size dStart v w)
        (by omega) (by rw [hsum] at hlt; omega)
      exact ⟨d, li, heq, by omega, by omega, hli⟩

/-- Helper: `getD` after `set` inside the range. -/
theorem getD_set_ite (acc : List Nat) (jdx i val : Nat) (hj : jdx < acc.length) :
    (acc.set jdx val).getD i 0 = if jdx = i then val else acc.getD i 0 := by
  by_cases h : jdx = i
  · subst h
    rw [if_pos rfl, List.getD_eq_getElem?_getD, List.getElem?_set_eq_of_lt _ hj]
    rfl
  · rw [if_neg h, List.getD_eq_getElem?_getD, List.getElem?_set_ne h, ← List.getD_eq_getElem?_getD]

/-- Helper: the checksum-accumulation fold of `calculate_full_checksum`,
generalized over the starting index of the enumeration: it preserves the
bucket count and adds to bucket `i` exactly the claimed per-bucket sum. -/
theorem tlfcFold_spec (w c : Nat) (hc : 0 < c) :
    ∀ (l : List Nat) (n : Nat) (acc : List Nat), acc.length = c →
      (((l.enumFrom n).foldl
        (fun acc p => acc.set (p.1 % c) (acc.getD (p.1 % c) 0 + 2 ^ (p.1 % c) * (w - p.2)))
        acc).length = c ∧
      ∀ i, i < c →
        ((l.enumFrom n).foldl
          (fun acc p => acc.set (p.1 % c) (acc.getD (p.1 % c) 0 + 2 ^ (p.1 % c) * (w - p.2)))
          acc).getD i 0 =
        acc.getD i 0 + ∑ j ∈ Finset.range l.length,
          (if (n + j) % c = i then 2 ^ ((n + j) % c) * (w - l.getD j 0) else 0)) := by
  intro l
  induction l with
  | nil =>
    intro n acc hacc
    exact ⟨hacc, fun i _ => by simp⟩
  | cons x xs ih =>
    intro n acc hacc
    have hstep : (acc.set (n % c) (acc.getD (n % c) 0 + 2 ^ (n % c) * (w - x))).length = c := by
      rw [List.length_set]; exact hacc
    obtain ⟨ihlen, ihsum⟩ := ih (n + 1)
      (acc.set (n % c) (acc.getD (n % c) 0 + 2 ^ (n % c) * (w - x))) hstep
    refine ⟨ihlen, ?_⟩
    intro i hi
    rw [show (x :: xs).enumFrom n = (n, x) :: xs.enumFrom (n + 1) from rfl, List.foldl_cons]
    rw [ihsum i hi]
    rw [getD_set_ite acc (n % c) i _ (by rw [hacc]; exact Nat.mod_lt _ hc)]
    have hsum : ∑ j ∈ Finset.range (x :: xs).length,
        (if (n + j) % c = i then 2 ^ ((n + j) % c) * (w - (x :: xs).getD j 0) else 0) =
        (if n % c = i then 2 ^ (n % c) * (w - x) else 0) +
        ∑ j ∈ Finset.range xs.length,
          (if (n + 1 + j) % c = i then 2 ^ ((n + 1 + j) % c) * (w - xs.getD j 0) else 0) := by
      rw [List.length_cons, Finset.sum_range_succ']
      rw [Nat.add_comm]
      congr 1
      · apply Finset.sum_congr rfl
        intro j _
        have h1 : n + (j + 1) = n + 1 + j := by omega
        rw [h1, List.getD_cons_succ]
    rw [hsum]
    by_cases hcase : n % c = i
    · rw [if_pos hcase, if_pos hcase, ← hcase]
      omega
    · rw [if_neg hcase, if_neg hcase]
      omega

/-- Helper: one combining pass halves the node count. -/
theorem combine_length (H : Bytes → Bytes) (ps : Bytes) (h : Nat) (level : List Bytes) :
    (Merkle.combine H ps h level).length = level.length / 2 := by
  unfold Merkle.combine
  rw [List.length_map, List.length_range]

/-- Helper: the level at height `i` of the built tree has `len / 2^i` nodes. -/
theorem buildLevels_getD_length (H : Bytes → Bytes) (ps : Bytes) :
    ∀ k h0 level i, i ≤ k →
      ((Merkle.buildLevels H ps k h0 level).getD i []).length = level.length / 2 ^ i := by
  intro k
  induction k with
  | zero =>
    intro h0 level i hi
    interval_cases i
    simp [Merkle.buildLevels]
  | succ k ih =>
    intro h0 level i hi
    cases i with
    | zero => simp [Merkle.buildLevels]
    | succ i =>
      unfold Merkle.buildLevels
      rw [show (level :: Merkle.buildLevels H ps k (h0 + 1)
          (Merkle.combine H ps h0 level)).getD (i + 1) [] =
        (Merkle.buildLevels H ps k (h0 + 1) (Merkle.combine H ps h0 level)).getD i []
          from rfl]
      rw [ih _ _ i (by omega), combine_length]
      rw [Nat.div_div_eq_div_mul]
      congr 1
      rw [Nat.pow_succ]
      ring

/-- Helper: the sibling walk succeeds and returns one node per height whenever
every sibling index is in range. -/
theorem authPathGo_spec (nodes : List (List Bytes)) :
    ∀ k h index,
      (∀ j, j < k → (index / 2 ^ j) ^^^ 1 < (nodes.getD (h + j) []).length) →
      ∃ path, Merkle.authPathGo nodes k h index = some path ∧ path.length = k := by
  intro k
  induction k with
  | zero => exact fun h index _ => ⟨[], rfl, rfl⟩
  | succ k ih =>
    intro h index hrange
    have h0 : index ^^^ 1 < (nodes.getD h []).length := by
      have := hrange 0 (Nat.succ_pos _)
      simpa using this
    obtain ⟨nd, hnd⟩ : ∃ nd, (nodes.getD h []).get? (index ^^^ 1) = some nd := by
      rw [List.get?_eq_getElem?]
      exact ⟨_, List.getElem?_eq_getElem h0⟩
    have hnext : ∀ j, j < k →
        ((index / 2) / 2 ^ j) ^^^ 1 < (nodes.getD (h + 1 + j) []).length := by
      intro j hj
      have hstep := hrange (j + 1) (by omega)
      have h2 : 2 * 2 ^ j = 2 ^ (j + 1) := by rw [Nat.pow_succ]; ring
      rw [Nat.div_div_eq_div_mul, h2, show h + 1 + j = h + (j + 1) from by omega]
      exact hstep
    obtain ⟨rest, hrest, hlen⟩ := ih (h + 1) (index / 2) hnext
    refine ⟨nd :: rest, ?_, by rw [List.length_cons, hlen]⟩
    unfold Merkle.authPathGo
    simp only [hnd, hrest]

/-- **C10.**  `MerkleTree::build` accepts exactly the power-of-two leaf counts
(it panics otherwise), and for `2^h` leaves it builds a tree of height `h`
whose `authentication_path(k)` returns exactly `h` sibling nodes for every
`k < 2^h`. -/
theorem merkle_build_auth (H : Bytes → Bytes) (leaves : List Bytes) (ps : Bytes) :
    (Merkle.Tree.build H leaves ps = none ↔
      leaves.length ≠ 2 ^ (Nat.clog 2 leaves.length)) ∧
    (∀ h : Nat, leaves.length = 2 ^ h →
      ∃ t, Merkle.Tree.build H leaves ps = some t ∧ t.height = h ∧
        ∀ k, k < 2 ^ h → ∃ path, t.authentication_path k = some path ∧ path.length = h) := by
  constructor
  · unfold Merkle.Tree.build
    dsimp only
    split
    case isTrue hne => simpa using hne
    case isFalse hne => simpa using hne
  · intro h hlen
    have hclog : Nat.clog 2 leaves.length = h := by
      rw [hlen, Nat.clog_pow 2 h (by omega)]
    refine ⟨⟨Merkle.buildLevels H ps h 0 leaves, h⟩, ?_, rfl, ?_⟩
    · unfold Merkle.Tree.build
      dsimp only
      rw [hclog, if_neg (by rw [hlen]; exact fun hne => hne rfl)]
    · intro k hk
      unfold Merkle.Tree.authentication_path
      dsimp only
      apply authPathGo_spec
      intro j hj
      rw [Nat.zero_add, buildLevels_getD_length H ps h 0 leaves j (by omega), hlen]
      have hdivpow : 2 ^ h / 2 ^ j = 2 ^ (h - j) := by
        rw [Nat.pow_div (by omega) (by omega)]
      rw [hdivpow]
      have hdiv : k / 2 ^ j < 2 ^ (h - j) := by
        rw [Nat.div_lt_iff_lt_mul (Nat.pos_pow_of_pos j (by omega))]
        rw [← Nat.pow_add]
        rw [show h - j + j = h from by omega]
        exact hk
      exact Nat.xor_lt_two_pow hdiv (by
        have : (1 : Nat) < 2 ^ 1 := by decide
        calc (1 : Nat) < 2 ^ 1 := this
          _ ≤ 2 ^ (h - j) := Nat.pow_le_pow_right (by omega) (by omega))

/-- **C10 witness.**  The build/authentication theorem at four concrete leaves
(`h = 2`). -/
theorem merkle_build_auth_witness :
    ∃ t, Merkle.Tree.build (fun x => [x.sum]) [[1], [2], [3], [4]] [9] = some t ∧
      t.height = 2 ∧
      ∀ k, k < 2 ^ 2 → ∃ path, t.authentication_path k = some path ∧ path.length = 2 :=
  (merkle_build_auth (fun x => [x.sum]) [[1], [2], [3], [4]] [9]).2 2 (by decide)

/-- Helper: the inner emission loop of `base_w_from_bytes` only appends masked
digits and never exceeds the requested count. -/
theorem baseW_inner_spec (log_w w_mask out_len : Nat) :
    ∀ fuel total bits acc, acc.length ≤ out_len →
      ∃ extra, (BaseW.inner log_w w_mask out_len fuel total bits acc).2.2 = acc ++ extra ∧
        (∀ x ∈ extra, x ≤ w_mask) ∧ (acc ++ extra).length ≤ out_len := by
  intro fuel
  induction fuel with
  | zero =>
    intro total bits acc hacc
    exact ⟨[], by simp [BaseW.inner], by simp, by simpa using hacc⟩
  | succ fuel ih =>
    intro total bits acc hacc
    unfold BaseW.inner
    split
    case isTrue hcond =>
      obtain ⟨extra, heq, hmask, hlen⟩ := ih (total >>> log_w) (bits - log_w)
        (acc ++ [total &&& w_mask]) (by rw [List.length_append]; simpa using hcond.2)
      refine ⟨(total &&& w_mask) :: extra, ?_, ?_, ?_⟩
      · rw [heq]
        simp
      · intro x hx
        rcases List.mem_cons.mp hx with hx | hx
        · subst hx; exact Nat.and_le_right
        · exact hmask x hx
      · simpa using hlen
    case isFalse hcond =>
      exact ⟨[], by simp, by simp, by simpa using hacc⟩

/-- Helper: the byte loop of `base_w_from_bytes`, same invariant. -/
theorem baseW_overBytes_spec (log_w w_mask out_len : Nat) :
    ∀ bytes total bits acc, acc.length ≤ out_len →
      ∃ extra, (BaseW.overBytes log_w w_mask out_len bytes total bits acc).2.2 = acc ++ extra ∧
        (∀ x ∈ extra, x ≤ w_mask) ∧ (acc ++ extra).length ≤ out_len := by
  intro bytes
  induction bytes with
  | nil =>
    intro total bits acc hacc
    exact ⟨[], by simp [BaseW.overBytes], by simp, by simpa using hacc⟩
  | cons b rest ih =>
    intro total bits acc hacc
    unfold BaseW.overBytes
    dsimp only
    obtain ⟨e1, he1, hm1, hl1⟩ := baseW_inner_spec log_w w_mask out_len (bits + 8)
      (total ||| (b <<< bits)) (bits + 8) acc hacc
    split
    case isTrue hfull => exact ⟨e1, he1, hm1, hl1⟩
    case isFalse hfull =>
      obtain ⟨e2, he2, hm2, hl2⟩ := ih
        (BaseW.inner log_w w_mask out_len (bits + 8) (total ||| (b <<< bits)) (bits + 8) acc).1
        (BaseW.inner log_w w_mask out_len (bits + 8) (total ||| (b <<< bits)) (bits + 8) acc).2.1
        (BaseW.inner log_w w_mask out_len (bits + 8) (total ||| (b <<< bits)) (bits + 8) acc).2.2
        (by rw [he1]; exact hl1)
      refine ⟨e1 ++ e2, ?_, ?_, ?_⟩
      · rw [he2, he1, List.append_assoc]
      · intro x hx
        rcases List.mem_append.mp hx with hx | hx
        · exact hm1 x hx
        · exact hm2 x hx
      · rw [← List.append_assoc, ← he1]
        exact hl2

/-- Helper: the padding loop appends exactly the missing digits, all masked
(or zero). -/
theorem baseW_pad_spec (log_w w_mask : Nat) :
    ∀ needed total bits acc,
      ∃ extra, BaseW.pad log_w w_mask needed total bits acc = acc ++ extra ∧
        (∀ x ∈ extra, x ≤ w_mask) ∧ extra.length = needed := by
  intro needed
  induction needed with
  | zero => exact fun total bits acc => ⟨[], by simp [BaseW.pad], by simp, rfl⟩
  | succ needed ih =>
    intro total bits acc
    unfold BaseW.pad
    split
    case isTrue hbits =>
      obtain ⟨extra, heq, hmask, hlen⟩ := ih (total >>> log_w) (bits - log_w)
        (acc ++ [total &&& w_mask])
      refine ⟨(total &&& w_mask) :: extra, ?_, ?_, by simpa using hlen⟩
      · rw [heq]
        simp
      · intro x hx
        rcases List.mem_cons.mp hx with hx | hx
        · subst hx; exact Nat.and_le_right
        · exact hmask x hx
    case isFalse hbits =>
      obtain ⟨extra, heq, hmask, hlen⟩ := ih total bits (acc ++ [0])
      refine ⟨0 :: extra, ?_, ?_, by simpa using hlen⟩
      · rw [heq]
        simp
      · intro x hx
        rcases List.mem_cons.mp hx with hx | hx
        · subst hx; exact Nat.zero_le _
        · exact hmask x hx

/-- Helper: `base_w_from_bytes` always yields `out_len` digits, each below `w`
(for `w ≥ 2` the mask `2^⌊log₂ w⌋ − 1` is at most `w − 1`). -/
theorem base_w_from_bytes_spec (bytes : List Nat) (w out_len : Nat) (hw : 1 < w) :
    (BaseW.base_w_from_bytes bytes w out_len).length = out_len ∧
    ∀ x ∈ BaseW.base_w_from_bytes bytes w out_len, x < w := by
  unfold BaseW.base_w_from_bytes
  dsimp only
  obtain ⟨e1, he1, hm1, hl1⟩ := baseW_overBytes_spec (Nat.log 2 w) (2 ^ Nat.log 2 w - 1)
    out_len bytes 0 0 [] (by simp)
  obtain ⟨e2, he2, hm2, hl2⟩ := baseW_pad_spec (Nat.log 2 w) (2 ^ Nat.log 2 w - 1)
    (out_len - (BaseW.overBytes (Nat.log 2 w) (2 ^ Nat.log 2 w - 1) out_len bytes 0 0 []).2.2.length)
    (BaseW.overBytes (Nat.log 2 w) (2 ^ Nat.log 2 w - 1) out_len bytes 0 0 []).1
    (BaseW.overBytes (Nat.log 2 w) (2 ^ Nat.log 2 w - 1) out_len bytes 0 0 []).2.1
    (BaseW.overBytes (Nat.log 2 w) (2 ^ Nat.log 2 w - 1) out_len bytes 0 0 []).2.2
  have hmasklt : 2 ^ Nat.log 2 w - 1 < w := by
    have := Nat.pow_log_le_self 2 (show w ≠ 0 by omega)
    have hpos : 0 < 2 ^ Nat.log 2 w := Nat.pos_pow_of_pos _ (by omega)
    omega
  constructor
  · rw [he2, List.length_append, hl2, he1]
    simp only [List.nil_append] at hl1 ⊢
    omega
  · intro x hx
    rw [he2] at hx
    rcases List.mem_append.mp hx with hx | hx
    · rw [he1] at hx
      simp only [List.nil_append] at hx
      exact Nat.lt_of_le_of_lt (hm1 x hx) hmasklt
    · exact Nat.lt_of_le_of_lt (hm2 x hx) hmasklt

/-- Helper: a non-exhausted XMSS state signs successfully, embedding the
pre-increment index and incrementing only the index. -/
theorem xmss_sign_step (H : Bytes → Bytes) (th wp len : Nat)
    (hth : 0 < th) (hwp : 1 < wp) (hlen : 0 < len)
    (priv : Xmss.PrivateKey) (m : Bytes) (hidx : priv.leaf_index < 2 ^ th) :
    ∃ sig priv', Xmss.sign H ⟨th, wp, len, false⟩ priv m = some (sig, priv') ∧
      sig.leaf_index = priv.leaf_index ∧
      priv' = { priv with leaf_index := priv.leaf_index + 1 } := by
  unfold Xmss.sign
  dsimp only
  rw [if_neg (by omega)]
  obtain ⟨hblen, hbval⟩ := base_w_from_bytes_spec
    (H (H (priv.sk_prf ++ be32 priv.leaf_index ++ m) ++ priv.root ++
      be32 priv.leaf_index ++ m)) wp len hwp
  have hsig : Wots.sign_raw H ⟨wp, len⟩
      (Xmss.deterministicSk H len priv.sk_seed (be32 priv.leaf_index))
      (BaseW.base_w_from_bytes
        (H (H (priv.sk_prf ++ be32 priv.leaf_index ++ m) ++ priv.root ++
          be32 priv.leaf_index ++ m)) wp len) =
      some ((List.range len).map fun i =>
        Wots.hash_chain H
          ((Xmss.deterministicSk H len priv.sk_seed (be32 priv.leaf_index)).getD i [])
          ((BaseW.base_w_from_bytes
            (H (H (priv.sk_prf ++ be32 priv.leaf_index ++ m) ++ priv.root ++
              be32 priv.leaf_index ++ m)) wp len).getD i 0)) := by
    unfold Wots.sign_raw
    rw [if_neg (by simpa using hblen), if_neg (by
      simp only [not_not, List.all_eq_true, decide_eq_true_eq]
      exact hbval)]
  rw [hsig]
  have hleaves : (Xmss.leafList H ⟨th, wp, len, false⟩ priv.sk_seed).length = 2 ^ th := by
    unfold Xmss.leafList
    rw [List.length_map, List.length_range]
  obtain ⟨t, hbuild, hheight, hauth⟩ :=
    (merkle_build_auth H (Xmss.leafList H ⟨th, wp, len, false⟩ priv.sk_seed)
      priv.public_seed).2 th hleaves
  rw [hbuild]
  dsimp only
  obtain ⟨path, hpath, _⟩ := hauth priv.leaf_index hidx
  rw [hpath]
  exact ⟨_, _, rfl, rfl, rfl⟩

/-- Helper: repeated signing advances the index by exactly the number of
messages, as long as the key is not exhausted. -/
theorem xmss_signAll_adds (H : Bytes → Bytes) (th wp len : Nat)
    (hth : 0 < th) (hwp : 1 < wp) (hlen : 0 < len) :
    ∀ (msgs : List Bytes) (priv : Xmss.PrivateKey),
      priv.leaf_index + msgs.length ≤ 2 ^ th →
      ∃ priv', Xmss.signAll H ⟨th, wp, len, false⟩ priv msgs = some priv' ∧
        priv'.leaf_index = priv.leaf_index + msgs.length := by
  intro msgs
  induction msgs with
  | nil => exact fun priv _ => ⟨priv, rfl, by simp⟩
  | cons m ms ih =>
    intro priv hbound
    obtain ⟨sig, priv1, hstep, _, hpriv1⟩ := xmss_sign_step H th wp len hth hwp hlen priv m
      (by simp only [List.length_cons] at hbound; omega)
    obtain ⟨priv', hall, hidx⟩ := ih priv1
      (by subst hpriv1; simp only [List.length_cons] at hbound ⊢; omega)
    refine ⟨priv', ?_, ?_⟩
    · unfold Xmss.signAll
      rw [hstep]
      exact hall
    · rw [hidx]
      subst hpriv1
      simp only [List.length_cons]
      omega

/-- **C5.**  Every successful XMSS sign increments the private state's
next-index by exactly one and embeds the pre-increment index in the returned
signature; once the index reaches `2^h` the sign call is a hard refusal
(a panic, modelled as `none`) that never wraps, so on a fresh key the
`(2^h + 1)`-th sign fails after `2^h` successes. -/
theorem xmss_sign_index_exhaustion (H : Bytes → Bytes) (th wp len : Nat)
    (params : Xmss.Params) (hparams : Xmss.Params.new th wp len = some params) :
    (∀ (priv : Xmss.PrivateKey) (m : Bytes), priv.leaf_index < 2 ^ th →
      ∃ sig priv', Xmss.sign H params priv m = some (sig, priv') ∧
        sig.leaf_index = priv.leaf_index ∧
        priv' = { priv with leaf_index := priv.leaf_index + 1 }) ∧
    (∀ (priv : Xmss.PrivateKey) (m : Bytes), 2 ^ th ≤ priv.leaf_index →
      Xmss.sign H params priv m = none) ∧
    (∀ (priv0 : Xmss.PrivateKey) (msgs : List Bytes) (m : Bytes),
      priv0.leaf_index = 0 → msgs.length = 2 ^ th →
      ∃ priv', Xmss.signAll H params priv0 msgs = some priv' ∧
        priv'.leaf_index = 2 ^ th ∧
        Xmss.signAll H params priv' [m] = none) := by
  unfold Xmss.Params.new at hparams
  split at hparams
  case isFalse => exact absurd hparams (by simp)
  case isTrue hP =>
  rw [Option.some_inj] at hparams
  subst hparams
  obtain ⟨hth, hwp, hlen⟩ := hP
  have hrefuse : ∀ (priv : Xmss.PrivateKey) (m : Bytes), 2 ^ th ≤ priv.leaf_index →
      Xmss.sign H ⟨th, wp, len, false⟩ priv m = none := by
    intro priv m hge
    unfold Xmss.sign
    dsimp only
    rw [if_pos hge]
  refine ⟨fun priv m hidx => xmss_sign_step H th wp len hth hwp hlen priv m hidx,
    hrefuse, ?_⟩
  intro priv0 msgs m hfresh hcount
  obtain ⟨priv', hall, hidx⟩ := xmss_signAll_adds H th wp len hth hwp hlen msgs priv0
    (by omega)
  refine ⟨priv', hall, by omega, ?_⟩
  unfold Xmss.signAll
  rw [hrefuse priv' m (by omega)]

/-- **C5 witness.**  The XMSS index theorem at `XMSSParams::new(1, 4, 2)` —
a height-1 tree signs twice and refuses the third signature. -/
theorem xmss_sign_index_exhaustion_witness :
    (∀ (priv : Xmss.PrivateKey) (m : Bytes), priv.leaf_index < 2 ^ 1 →
      ∃ sig priv', Xmss.sign (fun x => [x.sum]) ⟨1, 4, 2, false⟩ priv m = some (sig, priv') ∧
        sig.leaf_index = priv.leaf_index ∧
        priv' = { priv with leaf_index := priv.leaf_index + 1 }) ∧
    (∀ (priv : Xmss.PrivateKey) (m : Bytes), 2 ^ 1 ≤ priv.leaf_index →
      Xmss.sign (fun x => [x.sum]) ⟨1, 4, 2, false⟩ priv m = none) ∧
    (∀ (priv0 : Xmss.PrivateKey) (msgs : List Bytes) (m : Bytes),
      priv0.leaf_index = 0 → msgs.length = 2 ^ 1 →
      ∃ priv', Xmss.signAll (fun x => [x.sum]) ⟨1, 4, 2, false⟩ priv0 msgs = some priv' ∧
        priv'.leaf_index = 2 ^ 1 ∧
        Xmss.signAll (fun x => [x.sum]) ⟨1, 4, 2, false⟩ priv' [m] = none) :=
  xmss_sign_index_exhaustion (fun x => [x.sum]) 1 4 2 ⟨1, 4, 2, false⟩ (by decide)

/-- Helper: the multiplicative fold of `binomial_coefficient` computes the
binomial coefficient (each intermediate division is exact by the Pascal-type
recurrence). -/
theorem binomial_fold_eq_choose (n : Nat) :
    ∀ t, t ≤ n →
      (List.range t).foldl (fun result i => result * (n - i) / (i + 1)) 1 = Nat.choose n t := by
  intro t
  induction t with
  | zero => intro _; simp [Nat.choose_zero_right]
  | succ t ih =>
    intro ht
    rw [List.range_succ, List.foldl_append, ih (by omega), List.foldl_cons, List.foldl_nil]
    have hrec : Nat.choose n (t + 1) * (t + 1) = Nat.choose n t * (n - t) :=
      Nat.choose_succ_right_eq n t
    rw [← hrec, Nat.mul_div_cancel _ (Nat.succ_pos t)]

/-- Helper: `binomial_coefficient` from `src/core/mapping.rs` agrees with
`Nat.choose` everywhere. -/
theorem binomial_coefficient_eq_choose (n k : Nat) :
    Mapping.binomial_coefficient n k = Nat.choose n k := by
  unfold Mapping.binomial_coefficient
  split
  case isTrue h => rw [Nat.choose_eq_zero_of_lt h]
  case isFalse h =>
  split
  case isTrue h2 =>
    rcases h2 with h2 | h2
    · subst h2; rw [Nat.choose_zero_right]
    · subst h2; rw [Nat.choose_self]
  case isFalse h2 =>
    rcases Nat.le_total k (n - k) with hmin | hmin
    · rw [min_eq_left hmin, binomial_fold_eq_choose n k (by omega)]
    · rw [min_eq_right hmin, binomial_fold_eq_choose n (n - k) (by omega),
        Nat.choose_symm (by omega)]

/-- Helper: hockey-stick prefix sums of binomial coefficients. -/
theorem choose_hockey_stick (v' : Nat) :
    ∀ u, ∑ m ∈ Finset.range (u + 1), Nat.choose (m + v') v' =
      Nat.choose (u + v' + 1) (v' + 1) := by
  intro u
  induction u with
  | zero =>
    rw [Finset.sum_range_one, Nat.zero_add, Nat.choose_self, Nat.choose_self]
  | succ u ih =>
    rw [Finset.sum_range_succ, ih]
    rw [show u + 1 + v' + 1 = (u + v' + 1) + 1 from by omega,
      Nat.choose_succ_succ (u + v' + 1) v']
    simp only [Nat.succ_eq_add_one]
    rw [show u + 1 + v' = u + v' + 1 from by omega]
    omega

/-- Helper: splitting a range sum at an intermediate point. -/
theorem sum_range_split {M : Type} [AddCommMonoid M] (f : Nat → M) (a : Nat) :
    ∀ b, ∑ m ∈ Finset.range (a + b), f m =
      (∑ m ∈ Finset.range a, f m) + ∑ m ∈ Finset.range b, f (a + m) := by
  intro b
  induction b with
  | zero => rw [Finset.sum_range_zero, Nat.add_zero, add_zero]
  | succ b ih =>
    rw [show a + (b + 1) = (a + b) + 1 from by omega, Finset.sum_range_succ, ih,
      Finset.sum_range_succ, add_assoc]

/-- Helper: the windowed hockey stick used by the layer-count recurrence:
summing `C(u − j + v', v')` for `j` from 0 to `min(u, w−1)` reaches the full
prefix `C(u + v' + 1, v' + 1)` minus (when `w ≤ u`) the truncated prefix. -/
theorem choose_window_sum (v' w u : Nat) (hw : 1 ≤ w) :
    (∑ j ∈ Finset.range (min u (w - 1) + 1), Nat.choose (u - j + v') v') +
      (if w ≤ u then Nat.choose (u - w + v' + 1) (v' + 1) else 0) =
      Nat.choose (u + v' + 1) (v' + 1) := by
  rcases Nat.lt_or_ge u w with hcase | hcase
  · rw [if_neg (by omega), Nat.add_zero, min_eq_left (by omega)]
    rw [← choose_hockey_stick v' u]
    rw [← Finset.sum_range_reflect]
    apply Finset.sum_congr rfl
    intro j hj
    rw [Finset.mem_range] at hj
    congr 2
    omega
  · rw [if_pos hcase, min_eq_right (by omega)]
    have hw1 : w - 1 + 1 = w := by omega
    rw [hw1]
    have hrefl : ∑ j ∈ Finset.range w, Nat.choose (u - j + v') v' =
        ∑ m ∈ Finset.range w, Nat.choose ((u - w + 1) + m + v') v' := by
      rw [← Finset.sum_range_reflect]
      apply Finset.sum_congr rfl
      intro j hj
      rw [Finset.mem_range] at hj
      congr 2
      omega
    rw [hrefl]
    have hsplit := sum_range_split (fun m => Nat.choose (m + v') v') (u - w + 1) w
    rw [show u - w + 1 + w = u + 1 from by omega] at hsplit
    rw [choose_hockey_stick v' u] at hsplit
    have hpre := choose_hockey_stick v' (u - w)
    rw [show u - w + 1 = (u - w) + 1 from rfl] at hsplit
    rw [hpre] at hsplit
    have hcongr : ∑ m ∈ Finset.range w, Nat.choose ((u - w + 1) + m + v') v' =
        ∑ m ∈ Finset.range w, Nat.choose ((u - w + 1) + m + v') v' := rfl
    omega

/-- Helper: a range sum of an `if j ≤ u` indicator collapses to the window
`0..min u (w−1)`. -/
theorem sum_ite_window (w u : Nat) (hw : 1 ≤ w) (h : Nat → Int) :
    ∑ j ∈ Finset.range w, (if j ≤ u then h j else 0) =
      ∑ j ∈ Finset.range (min u (w - 1) + 1), h j := by
  rw [← Finset.sum_subset (Finset.range_subset.mpr (show min u (w - 1) + 1 ≤ w from by omega))]
  · apply Finset.sum_congr rfl
    intro j hj
    rw [Finset.mem_range] at hj
    rw [if_pos (by omega)]
  · intro j hjw hjno
    rw [Finset.mem_range] at hjw
    rw [Finset.mem_range, not_lt] at hjno
    rw [if_neg (by omega)]

/-- Helper: Pascal's rule in `ℤ` with an explicit indicator for `s = 0`. -/
theorem choose_pascal_int (v s : Nat) :
    (Nat.choose (v + 1) s : Int) =
      (Nat.choose v s : Int) + (if 1 ≤ s then (Nat.choose v (s - 1) : Int) else 0) := by
  cases s with
  | zero => simp
  | succ t =>
    rw [if_pos (by omega)]
    rw [Nat.choose_succ_succ v t]
    push_cast
    simp only [Nat.succ_eq_add_one]
    omega

/-- Helper: the windowed hockey stick in `ℤ`, subtraction form. -/
theorem choose_window_sum_int (v' w u : Nat) (hw : 1 ≤ w) :
    ∑ j ∈ Finset.range (min u (w - 1) + 1), (Nat.choose (u - j + v') v' : Int) =
      (Nat.choose (u + v' + 1) (v' + 1) : Int) -
        (if w ≤ u then (Nat.choose (u - w + v' + 1) (v' + 1) : Int) else 0) := by
  have h := choose_window_sum v' w u hw
  have hcast : ((∑ j ∈ Finset.range (min u (w - 1) + 1), Nat.choose (u - j + v') v' : Nat) : Int) +
      ((if w ≤ u then Nat.choose (u - w + v' + 1) (v' + 1) else 0 : Nat) : Int) =
      (Nat.choose (u + v' + 1) (v' + 1) : Int) := by
    rw [← Nat.cast_add, h]
  push_cast at hcast
  linarith [hcast]

/-- Helper: the inclusion–exclusion sum satisfies the layer-count recurrence
`ℓ_d(v+1) = Σ_{j=0}^{min(d,w−1)} ℓ_{d−j}(v)` (stated with an indicator over
`j < w`). -/
theorem layerSizeInt_rec (w v d : Nat) (hw : 1 ≤ w) (hv : 1 ≤ v) :
    layerSizeInt d (v + 1) w =
      ∑ j ∈ Finset.range w, (if j ≤ d then layerSizeInt (d - j) v w else 0) := by
  have hR1 : ∀ j, (if j ≤ d then layerSizeInt (d - j) v w else 0) =
      ∑ s ∈ Finset.range (d / w + 1),
        (if j ≤ d ∧ s * w ≤ d - j then
          (-1 : Int) ^ s * (Nat.choose v s : Int) *
            (Nat.choose (d - j - s * w + v - 1) (v - 1) : Int)
        else 0) := by
    intro j
    by_cases hj : j ≤ d
    · rw [if_pos hj]
      unfold layerSizeInt
      symm
      rw [← Finset.sum_subset (Finset.range_subset.mpr
          (show (d - j) / w + 1 ≤ d / w + 1 from by
            have h1 := Nat.div_le_div_right (c := w) (Nat.sub_le d j)
            omega))
          (by
            intro s hsl hsno
            rw [Finset.mem_range] at hsl
            rw [Finset.mem_range, not_lt] at hsno
            rw [if_neg]
            rintro ⟨-, hsw⟩
            rw [← Nat.le_div_iff_mul_le (by omega)] at hsw
            omega)]
      apply Finset.sum_congr rfl
      intro s hs
      rw [Finset.mem_range] at hs
      have hsw : s * w ≤ d - j := by
        rw [← Nat.le_div_iff_mul_le (by omega)]
        omega
      rw [if_pos ⟨hj, hsw⟩]
    · rw [if_neg hj]
      symm
      apply Finset.sum_eq_zero
      intro s _
      rw [if_neg (by rintro ⟨hc, -⟩; exact hj hc)]
  rw [Finset.sum_congr rfl (fun j _ => hR1 j), Finset.sum_comm]
  have hInner : ∀ s ∈ Finset.range (d / w + 1),
      ∑ j ∈ Finset.range w,
        (if j ≤ d ∧ s * w ≤ d - j then
          (-1 : Int) ^ s * (Nat.choose v s : Int) *
            (Nat.choose (d - j - s * w + v - 1) (v - 1) : Int)
        else 0) =
      (-1 : Int) ^ s * (Nat.choose v s : Int) *
        ((Nat.choose (d - s * w + v) v : Int) -
          (if w ≤ d - s * w then (Nat.choose (d - s * w - w + v) v : Int) else 0)) := by
    intro s hs
    rw [Finset.mem_range] at hs
    have hsw : s * w ≤ d := by
      rw [← Nat.le_div_iff_mul_le (by omega)]
      omega
    have hstep1 : ∀ j, (if j ≤ d ∧ s * w ≤ d - j then
        (-1 : Int) ^ s * (Nat.choose v s : Int) *
          (Nat.choose (d - j - s * w + v - 1) (v - 1) : Int)
      else 0) =
        (-1 : Int) ^ s * (Nat.choose v s : Int) *
          (if j ≤ d - s * w then (Nat.choose (d - s * w - j + (v - 1)) (v - 1) : Int) else 0) := by
      intro j
      by_cases hcond : j ≤ d - s * w
      · rw [if_pos hcond, if_pos (by omega)]
        rw [show d - j - s * w + v - 1 = d - s * w - j + (v - 1) from by omega]
      · rw [if_neg hcond, if_neg (by rintro ⟨h1, h2⟩; omega), mul_zero]
    rw [Finset.sum_congr rfl (fun j _ => hstep1 j), ← Finset.mul_sum]
    congr 1
    rw [sum_ite_window w (d - s * w) hw
      (fun j => (Nat.choose (d - s * w - j + (v - 1)) (v - 1) : Int))]
    rw [choose_window_sum_int (v - 1) w (d - s * w) hw]
    rw [show d - s * w + (v - 1) + 1 = d - s * w + v from by omega,
      show (v - 1) + 1 = v from by omega,
      show d - s * w - w + (v - 1) + 1 = d - s * w - w + v from by omega]
  rw [Finset.sum_congr rfl hInner]
  have hLHS : layerSizeInt d (v + 1) w =
      ∑ s ∈ Finset.range (d / w + 1),
        (-1 : Int) ^ s * (Nat.choose (v + 1) s : Int) *
          (Nat.choose (d - s * w + v) v : Int) := by
    unfold layerSizeInt
    apply Finset.sum_congr rfl
    intro s _
    rw [show d - s * w + (v + 1) - 1 = d - s * w + v from by omega,
      show v + 1 - 1 = v from by omega]
  rw [hLHS]
  have htrim : ∑ s ∈ Finset.range (d / w + 1),
      (-1 : Int) ^ s * (Nat.choose v s : Int) *
        (if w ≤ d - s * w then (Nat.choose (d - s * w - w + v) v : Int) else 0) =
      ∑ s ∈ Finset.range (d / w),
        (-1 : Int) ^ s * (Nat.choose v s : Int) *
          (Nat.choose (d - (s + 1) * w + v) v : Int) := by
    symm
    rw [← Finset.sum_subset (Finset.range_subset.mpr (show d / w ≤ d / w + 1 from by omega))
        (by
          intro s hsl hsno
          rw [Finset.mem_range] at hsl
          rw [Finset.mem_range, not_lt] at hsno
          have hnotc : ¬ w ≤ d - s * w := by
            intro hcontra
            have h1 : (s + 1) * w ≤ d := by rw [Nat.succ_mul]; omega
            rw [← Nat.le_div_iff_mul_le (by omega)] at h1
            omega
          rw [if_neg hnotc, mul_zero])]
    apply Finset.sum_congr rfl
    intro s hsmem
    rw [Finset.mem_range] at hsmem
    have hcond : w ≤ d - s * w := by
      have h1 : (s + 1) * w ≤ d := by
        rw [← Nat.le_div_iff_mul_le (by omega)]
        omega
      rw [Nat.succ_mul] at h1
      omega
    rw [if_pos hcond]
    rw [show d - (s + 1) * w + v = d - s * w - w + v from by rw [Nat.succ_mul]; omega]
  have hshift : ∑ s ∈ Finset.range (d / w + 1),
      (if 1 ≤ s then
        (-1 : Int) ^ s * (Nat.choose v (s - 1) : Int) * (Nat.choose (d - s * w + v) v : Int)
      else 0) =
      ∑ t ∈ Finset.range (d / w),
        -((-1 : Int) ^ t * (Nat.choose v t : Int) *
          (Nat.choose (d - (t + 1) * w + v) v : Int)) := by
    rw [Finset.sum_range_succ']
    rw [if_neg (by omega), add_zero]
    apply Finset.sum_congr rfl
    intro t _
    rw [if_pos (by omega)]
    rw [show t + 1 - 1 = t from by omega, pow_succ]
    ring
  have hsplit : ∀ s : Nat,
      (-1 : Int) ^ s * (Nat.choose (v + 1) s : Int) * (Nat.choose (d - s * w + v) v : Int) =
      (-1 : Int) ^ s * (Nat.choose v s : Int) * (Nat.choose (d - s * w + v) v : Int) +
      (if 1 ≤ s then
        (-1 : Int) ^ s * (Nat.choose v (s - 1) : Int) * (Nat.choose (d - s * w + v) v : Int)
      else 0) := by
    intro s
    rw [choose_pascal_int v s]
    by_cases h1 : 1 ≤ s
    · rw [if_pos h1, if_pos h1]
      ring
    · rw [if_neg h1, if_neg h1]
      ring
  rw [Finset.sum_congr rfl (fun s _ => hsplit s), Finset.sum_add_distrib, hshift]
  have hmulsub : ∀ s : Nat,
      (-1 : Int) ^ s * (Nat.choose v s : Int) *
        ((Nat.choose (d - s * w + v) v : Int) -
          (if w ≤ d - s * w then (Nat.choose (d - s * w - w + v) v : Int) else 0)) =
      (-1 : Int) ^ s * (Nat.choose v s : Int) * (Nat.choose (d - s * w + v) v : Int) -
      (-1 : Int) ^ s * (Nat.choose v s : Int) *
        (if w ≤ d - s * w then (Nat.choose (d - s * w - w + v) v : Int) else 0) := by
    intro s
    ring
  rw [Finset.sum_congr rfl (fun s _ => hmulsub s), Finset.sum_sub_distrib, htrim,
    Finset.sum_neg_distrib]
  ring

/-- Helper: a `List.range` mapped sum is the corresponding `Finset.range` sum. -/
theorem list_range_map_sum {M : Type} [AddCommMonoid M] (f : Nat → M) :
    ∀ n, ((List.range n).map f).sum = ∑ j ∈ Finset.range n, f j := by
  intro n
  induction n with
  | zero => rfl
  | succ n ih =>
    rw [List.range_succ, List.map_append, List.sum_append, ih, Finset.sum_range_succ]
    simp

/-- Helper: the spec count for a single coordinate is the indicator of `d < w`. -/
theorem layerCountSpec_one (w d : Nat) :
    layerCountSpec w d 1 = if d < w then 1 else 0 := by
  show ((List.range w).map (fun j => if j ≤ d then layerCountSpec w (d - j) 0 else 0)).sum = _
  rw [list_range_map_sum]
  have h1 : ∀ j, (if j ≤ d then layerCountSpec w (d - j) 0 else 0) =
      if j = d then 1 else 0 := by
    intro j
    by_cases hj : j ≤ d
    · rw [if_pos hj]
      show (if d - j = 0 then 1 else 0) = _
      by_cases hjd : j = d
      · rw [if_pos (by omega), if_pos hjd]
      · rw [if_neg (by omega), if_neg hjd]
    · rw [if_neg hj, if_neg (by omega)]
  rw [Finset.sum_congr rfl (fun j _ => h1 j),
    Finset.sum_ite_eq' (Finset.range w) d (fun _ => 1)]
  simp [Finset.mem_range]

/-- Helper: the untruncated inclusion–exclusion sum equals the exact recursive
count of layer-`d` vertices, for every positive dimension. -/
theorem layerSizeInt_eq_layerCountSpec (w : Nat) (hw : 1 ≤ w) :
    ∀ v d, 1 ≤ v → layerSizeInt d v w = (layerCountSpec w d v : Int) := by
  intro v
  induction v with
  | zero => intro d h; exact absurd h (by omega)
  | succ v ih =>
    intro d _
    by_cases hv : 1 ≤ v
    · rw [layerSizeInt_rec w v d hw hv]
      have hcg : ∀ j ∈ Finset.range w,
          (if j ≤ d then layerSizeInt (d - j) v w else 0) =
          (if j ≤ d then (layerCountSpec w (d - j) v : Int) else 0) := by
        intro j _
        by_cases hj : j ≤ d
        · rw [if_pos hj, if_pos hj, ih (d - j) hv]
        · rw [if_neg hj, if_neg hj]
      rw [Finset.sum_congr rfl hcg]
      have hrhs : (layerCountSpec w d (v + 1) : Int) =
          ∑ j ∈ Finset.range w,
            ((if j ≤ d then layerCountSpec w (d - j) v else 0 : Nat) : Int) := by
        rw [show layerCountSpec w d (v + 1) = ((List.range w).map
            (fun j => if j ≤ d then layerCountSpec w (d - j) v else 0)).sum from rfl,
          list_range_map_sum, Nat.cast_sum]
      rw [hrhs]
      apply Finset.sum_congr rfl
      intro j _
      rw [apply_ite (fun n : Nat => (n : Int)), Nat.cast_zero]
    · have hv0 : v = 0 := by omega
      subst hv0
      rw [layerCountSpec_one]
      unfold layerSizeInt
      have hterm : ∀ s ∈ Finset.range (d / w + 1),
          (-1 : Int) ^ s * (Nat.choose 1 s : Int) *
            (Nat.choose (d - s * w + 1 - 1) (1 - 1) : Int) =
          (if s = 0 then 1 else 0) - (if s = 1 then 1 else 0) := by
        intro s _
        rw [show (1 : Nat) - 1 = 0 from rfl, Nat.choose_zero_right]
        obtain _ | _ | s := s
        · norm_num
        · norm_num
        · rw [Nat.choose_eq_zero_of_lt (by omega), if_neg (by omega), if_neg (by omega)]
          push_cast
          ring
      rw [Finset.sum_congr rfl hterm, Finset.sum_sub_distrib,
        Finset.sum_ite_eq' (Finset.range (d / w + 1)) 0 (fun _ => (1 : Int)),
        Finset.sum_ite_eq' (Finset.range (d / w + 1)) 1 (fun _ => (1 : Int))]
      rw [if_pos (show (0 : Nat) ∈ Finset.range (d / w + 1) from
        Finset.mem_range.mpr (Nat.succ_pos _))]
      by_cases hd : d < w
      · rw [if_pos hd, if_neg (show (1 : Nat) ∉ Finset.range (d / w + 1) from by
          rw [Finset.mem_range, Nat.div_eq_of_lt hd]
          decide)]
        norm_num
      · rw [if_neg hd, if_pos (show (1 : Nat) ∈ Finset.range (d / w + 1) from by
          rw [Finset.mem_range]
          exact Nat.lt_succ_of_le ((Nat.one_le_div_iff (by omega)).mpr (by omega)))]
        norm_num

/-- Helper: the spec count vanishes beyond the top layer `v·(w−1)`. -/
theorem layerCountSpec_eq_zero (w : Nat) :
    ∀ v d, v * (w - 1) < d → layerCountSpec w d v = 0 := by
  intro v
  induction v with
  | zero =>
    intro d hd
    show (if d = 0 then 1 else 0) = 0
    rw [if_neg (by omega)]
  | succ v ih =>
    intro d hd
    show ((List.range w).map (fun j => if j ≤ d then layerCountSpec w (d - j) v else 0)).sum = 0
    rw [list_range_map_sum]
    apply Finset.sum_eq_zero
    intro j hj
    rw [Finset.mem_range] at hj
    by_cases hjd : j ≤ d
    · rw [if_pos hjd]
      apply ih
      have hexp : (v + 1) * (w - 1) = v * (w - 1) + (w - 1) := by ring
      omega
    · rw [if_neg hjd]

/-- Helper: every layer `d ≤ v·(w−1)` is nonempty. -/
theorem layerCountSpec_pos (w : Nat) (hw : 1 ≤ w) :
    ∀ v d, d ≤ v * (w - 1) → 1 ≤ layerCountSpec w d v := by
  intro v
  induction v with
  | zero =>
    intro d hd
    show 1 ≤ if d = 0 then 1 else 0
    rw [if_pos (by omega)]
  | succ v ih =>
    intro d hd
    show 1 ≤ ((List.range w).map (fun j => if j ≤ d then layerCountSpec w (d - j) v else 0)).sum
    rw [list_range_map_sum]
    have hj0w : min d (w - 1) ∈ Finset.range w := Finset.mem_range.mpr (by omega)
    have hnn : ∀ j ∈ Finset.range w, 0 ≤ (if j ≤ d then layerCountSpec w (d - j) v else 0) :=
      fun j _ => Nat.zero_le _
    have hle := Finset.single_le_sum hnn hj0w
    rw [if_pos (show min d (w - 1) ≤ d by omega)] at hle
    have hrec : 1 ≤ layerCountSpec w (d - min d (w - 1)) v := by
      apply ih
      have hexp : (v + 1) * (w - 1) = v * (w - 1) + (w - 1) := by ring
      omega
    omega

/-- Helper: every partial alternating sum is a lower bound for the clamped
left-to-right fold of `calculate_layer_size` in `src/core/mapping.rs`. -/
theorem fold_ge_partial (d v w : Nat) (hw : 1 ≤ w) (hv : 1 ≤ v) :
    ∀ n, n ≤ d / w + 1 →
      ∑ s ∈ Finset.range n, (-1 : Int) ^ s * (Nat.choose v s : Int) *
          (Nat.choose (d - s * w + v - 1) (v - 1) : Int) ≤
        (((List.range n).foldl (fun sum s =>
          let binom_v_s := Mapping.binomial_coefficient v s
          let inner_arg := d + v - 1 - s * w
          let binom_inner := if v - 1 ≤ inner_arg then
            Mapping.binomial_coefficient inner_arg (v - 1) else 0
          let term := binom_v_s * binom_inner
          if s % 2 = 0 then sum + term else sum - term) 0 : Nat) : Int) := by
  intro n
  induction n with
  | zero => simp
  | succ n ih =>
    intro hn
    have hndw : n ≤ d / w := by omega
    have hnw : n * w ≤ d := (Nat.le_div_iff_mul_le (show 0 < w by omega)).mp hndw
    have hih := ih (by omega)
    rw [Finset.sum_range_succ, List.range_succ, List.foldl_append, List.foldl_cons,
      List.foldl_nil]
    dsimp only
    dsimp only at hih
    rw [show d + v - 1 - n * w = d - n * w + v - 1 from by omega,
      if_pos (show v - 1 ≤ d - n * w + v - 1 from by omega),
      binomial_coefficient_eq_choose, binomial_coefficient_eq_choose]
    by_cases hpar : n % 2 = 0
    · rw [if_pos hpar]
      have he : (-1 : Int) ^ n = 1 := Even.neg_one_pow (Nat.even_iff.mpr hpar)
      rw [he, one_mul, ← Nat.cast_mul]
      omega
    · rw [if_neg hpar]
      have ho : (-1 : Int) ^ n = -1 := Odd.neg_one_pow (Nat.odd_iff.mpr (by omega))
      rw [ho]
      have h2 : (-1 : Int) * (Nat.choose v n : Int) *
          (Nat.choose (d - n * w + v - 1) (v - 1) : Int) =
          -((Nat.choose v n * Nat.choose (d - n * w + v - 1) (v - 1) : Nat) : Int) := by
        push_cast
        ring
      rw [h2]
      omega

/-- Helper: the clamped counter of `src/core/mapping.rs` never undercounts: it
is bounded below by the exact layer count. -/
theorem spec_le_calculate_layer_size (d v w : Nat) (hw : 1 ≤ w) :
    layerCountSpec w d v ≤ Mapping.calculate_layer_size d v w := by
  unfold Mapping.calculate_layer_size
  by_cases hv : v = 0
  · subst hv
    rw [if_pos rfl]
    by_cases hd : d = 0
    · subst hd
      show layerCountSpec w 0 0 ≤ _
      rw [if_pos rfl]
      show (if (0 : Nat) = 0 then 1 else 0) ≤ 1
      rw [if_pos rfl]
    · rw [if_neg hd]
      show (if d = 0 then 1 else 0) ≤ 0
      rw [if_neg hd]
  · rw [if_neg hv]
    by_cases hr : v * (w - 1) < d
    · rw [if_pos hr, layerCountSpec_eq_zero w v d hr]
    · rw [if_neg hr]
      have h1' : layerSizeInt d v w ≤ (((List.range (d / w + 1)).foldl (fun sum s =>
          let binom_v_s := Mapping.binomial_coefficient v s
          let inner_arg := d + v - 1 - s * w
          let binom_inner := if v - 1 ≤ inner_arg then
            Mapping.binomial_coefficient inner_arg (v - 1) else 0
          let term := binom_v_s * binom_inner
          if s % 2 = 0 then sum + term else sum - term) 0 : Nat) : Int) :=
        fold_ge_partial d v w hw (by omega) (d / w + 1) (le_refl _)
      rw [layerSizeInt_eq_layerCountSpec w hw v d (by omega)] at h1'
      exact_mod_cast h1'

/-- Helper: a nonzero clamped layer size implies the layer is in range. -/
theorem cls_range_of_ne_zero (d v w : Nat)
    (h : Mapping.calculate_layer_size d v w ≠ 0) : d ≤ v * (w - 1) := by
  unfold Mapping.calculate_layer_size at h
  by_cases hv : v = 0
  · by_cases hd : d = 0
    · omega
    · rw [if_pos hv, if_neg hd] at h
      exact absurd rfl h
  · rw [if_neg hv] at h
    by_cases hr : v * (w - 1) < d
    · rw [if_pos hr] at h
      exact absurd rfl h
    · omega

/-- Helper: the clamped layer size is positive on every in-range layer. -/
theorem cls_pos (d v w : Nat) (hw : 1 ≤ w) (hd : d ≤ v * (w - 1)) :
    1 ≤ Mapping.calculate_layer_size d v w :=
  le_trans (layerCountSpec_pos w hw v d hd) (spec_le_calculate_layer_size d v w hw)

/-- Helper: a single remaining coordinate has clamped layer size exactly 1 on
layers `d ≤ w − 1`. -/
theorem cls_one (w d : Nat) (hw : 2 ≤ w) (hd : d ≤ w - 1) :
    Mapping.calculate_layer_size d 1 w = 1 := by
  unfold Mapping.calculate_layer_size
  rw [if_neg (by omega), if_neg (by omega), Nat.div_eq_of_lt (by omega)]
  rw [show List.range 1 = [0] from rfl, List.foldl_cons, List.foldl_nil]
  simp [binomial_coefficient_eq_choose]

/-- Helper: outcome of the candidate scan in `integer_to_vertex`.  The scan
either reports `IndexOutOfRange` — impossible when the index is 0 and some
candidate block in range is nonempty — or stops at a candidate `jI` within the
range whose preceding blocks sum to at most the index while the running sum
through `jI` exceeds it. -/
theorem itvScan_cases (w rem dI xI e1 e2 : Nat) (hx : xI < usizeBound) :
    ∀ fuel j sumBefore, 1 ≤ fuel → sumBefore ≤ xI → sumBefore < usizeBound →
      (Mapping.itvScan w rem dI xI e1 e2 fuel j sumBefore =
          .error (.indexOutOfRange e1 e2) ∧
        ¬ (xI = 0 ∧ ∃ t, j ≤ t ∧ t < j + fuel ∧
          1 ≤ Mapping.calculate_layer_size (dI - t) (rem - 1) w)) ∨
      (∃ jI, Mapping.itvScan w rem dI xI e1 e2 fuel j sumBefore = .ok jI ∧
        j ≤ jI ∧ jI < j + fuel ∧
        sumBefore + ((List.range' j (jI - j)).map
          (fun t => Mapping.calculate_layer_size (dI - t) (rem - 1) w)).sum ≤ xI ∧
        sumBefore + ((List.range' j (jI - j)).map
          (fun t => Mapping.calculate_layer_size (dI - t) (rem - 1) w)).sum < usizeBound ∧
        xI < sumBefore + ((List.range' j (jI - j)).map
          (fun t => Mapping.calculate_layer_size (dI - t) (rem - 1) w)).sum +
          Mapping.calculate_layer_size (dI - jI) (rem - 1) w) := by
  intro fuel
  induction fuel with
  | zero => intro j sumBefore hf; exact absurd hf (by omega)
  | succ fuel ih =>
    intro j sumBefore _ hsb hsbu
    rw [Mapping.itvScan]
    by_cases hover : sumBefore + Mapping.calculate_layer_size (dI - j) (rem - 1) w < usizeBound
    · rw [if_pos hover]
      by_cases hfound : xI < sumBefore + Mapping.calculate_layer_size (dI - j) (rem - 1) w
      · rw [if_pos hfound]
        right
        refine ⟨j, rfl, le_refl j, by omega, ?_, ?_, ?_⟩
        · simpa using hsb
        · simpa using hsbu
        · simpa using hfound
      · rw [if_neg hfound]
        by_cases hlast : fuel = 0
        · rw [if_pos hlast]
          left
          refine ⟨rfl, ?_⟩
          rintro ⟨hx0, t, hjt, htf, hblk⟩
          have ht : t = j := by omega
          subst ht
          omega
        · rw [if_neg hlast]
          have hrec := ih (j + 1)
            (sumBefore + Mapping.calculate_layer_size (dI - j) (rem - 1) w)
            (by omega) (by omega) hover
          rcases hrec with ⟨herr, hneg⟩ | ⟨jI, hok, hj1, hjf, hs1, hs2, hs3⟩
          · left
            refine ⟨herr, ?_⟩
            rintro ⟨hx0, t, hjt, htf, hblk⟩
            by_cases htj : t = j
            · subst htj
              omega
            · exact hneg ⟨hx0, t, by omega, by omega, hblk⟩
          · right
            refine ⟨jI, hok, by omega, by omega, ?_, ?_, ?_⟩
            all_goals
              rw [show jI - j = (jI - (j + 1)) + 1 from by omega, List.range'_succ,
                List.map_cons, List.sum_cons, ← Nat.add_assoc]
            · exact hs1
            · exact hs2
            · exact hs3
    · rw [if_neg hover]
      right
      refine ⟨j, rfl, le_refl j, by omega, ?_, ?_, ?_⟩
      · simpa using hsb
      · simpa using hsbu
      · simp only [Nat.sub_self]
        show xI < sumBefore + ((List.range' j 0).map _).sum +
          Mapping.calculate_layer_size (dI - j) (rem - 1) w
        simp only [List.range'_zero, List.map_nil, List.sum_nil, Nat.add_zero]
        omega

/-- Helper: the machine word bound is positive. -/
theorem usizeBound_pos : 0 < usizeBound := by decide

/-- Helper: a nonempty layer at dimension `v+1` has a nonempty child layer. -/
theorem layerCountSpec_succ_witness (w v d : Nat) (h : 1 ≤ layerCountSpec w d (v + 1)) :
    ∃ j, j < w ∧ j ≤ d ∧ 1 ≤ layerCountSpec w (d - j) v := by
  by_contra hc
  push_neg at hc
  have h0 : layerCountSpec w d (v + 1) = 0 := by
    show ((List.range w).map (fun j => if j ≤ d then layerCountSpec w (d - j) v else 0)).sum = 0
    rw [list_range_map_sum]
    apply Finset.sum_eq_zero
    intro j hj
    rw [Finset.mem_range] at hj
    by_cases hjd : j ≤ d
    · rw [if_pos hjd]
      have := hc j hj hjd
      omega
    · rw [if_neg hjd]
  omega

/-- Helper (master walk lemma): under the walk invariant — the index is below
the clamped layer size of the remaining sub-hypercube — the unrank walk either
fails with `IndexOutOfRange` (never with any other error, and never when the
index is 0) or extends the accumulator by `rem` coordinates, all in `[1, w]`. -/
theorem itvGo_master (w origD e1 e2 : Nat) (hw : 2 ≤ w) :
    ∀ rem xI dI acc, 1 ≤ rem → dI ≤ rem * (w - 1) →
      xI < Mapping.calculate_layer_size dI rem w → xI < usizeBound →
      origD + acc.sum = acc.length * w + dI →
      ((Mapping.itvGo w origD e1 e2 rem xI dI acc =
          .error (.indexOutOfRange e1 e2) ∧ xI ≠ 0) ∨
       (∃ tail, Mapping.itvGo w origD e1 e2 rem xI dI acc = .ok (acc ++ tail) ∧
         tail.length = rem ∧ ∀ c ∈ tail, 1 ≤ c ∧ c ≤ w)) := by
  intro rem
  induction rem using Nat.twoStepInduction with
  | zero =>
    intro xI dI acc h1 _ _ _ _
    exact absurd h1 (by omega)
  | one =>
    intro xI dI acc _ hdI hxcls hxu hinv
    have h1w : 1 * (w - 1) = w - 1 := by ring
    have hone : Mapping.calculate_layer_size dI 1 w = 1 := cls_one w dI hw (by omega)
    have hx0 : xI = 0 := by omega
    rw [Mapping.itvGo]
    dsimp only
    rw [if_neg (show ¬ w < xI + dI from by omega)]
    have hlayer : ¬ ((acc ++ [w - xI - dI]).length * w -
        (acc ++ [w - xI - dI]).sum ≠ origD) := by
      simp only [List.length_append, List.sum_append, List.length_cons, List.length_nil,
        List.sum_cons, List.sum_nil, Nat.add_zero, Nat.zero_add]
      have hmul : (acc.length + 1) * w = acc.length * w + w := by ring
      omega
    rw [if_neg hlayer]
    right
    refine ⟨[w - xI - dI], rfl, rfl, ?_⟩
    intro c hc
    simp only [List.mem_cons, List.not_mem_nil, or_false] at hc
    subst hc
    exact ⟨by omega, by omega⟩
  | more rem ih1 ih2 =>
    intro xI dI acc _ hdI hxcls hxu hinv
    have hexp : (rem + 2) * (w - 1) = (w - 1) * (rem + 1) + (w - 1) := by ring
    have hj : (if (w - 1) * (rem + 1) < dI then dI - (w - 1) * (rem + 1) else 0) =
        dI - min dI ((w - 1) * (rem + 1)) := by
      split <;> omega
    unfold Mapping.itvGo
    dsimp only
    rw [hj]
    have hfuel : 1 ≤ min dI (w - 1) + 1 - (dI - min dI ((w - 1) * (rem + 1))) := by omega
    have hscan := itvScan_cases w (rem + 2) dI xI e1 e2 hxu
      (min dI (w - 1) + 1 - (dI - min dI ((w - 1) * (rem + 1))))
      (dI - min dI ((w - 1) * (rem + 1))) 0 hfuel (Nat.zero_le _) usizeBound_pos
    simp only [show rem + 2 - 1 = rem + 1 from rfl] at hscan
    split
    next e heq =>
      rcases hscan with ⟨herr, hneg⟩ | ⟨jI, hok, _, _, _, _, _⟩
      · rw [heq] at herr
        left
        have he : e = Mapping.MappingError.indexOutOfRange e1 e2 := by
          injection herr
        subst he
        refine ⟨rfl, ?_⟩
        intro hx0
        subst hx0
        have hspec : 1 ≤ layerCountSpec w dI (rem + 2) :=
          layerCountSpec_pos w (by omega) (rem + 2) dI hdI
        obtain ⟨t, htw, htd, hts⟩ := layerCountSpec_succ_witness w (rem + 1) dI hspec
        have hcomm : (rem + 1) * (w - 1) = (w - 1) * (rem + 1) := by ring
        have htr : dI - t ≤ (rem + 1) * (w - 1) := by
          by_contra hcon
          have := layerCountSpec_eq_zero w (rem + 1) (dI - t) (by omega)
          omega
        exact hneg ⟨rfl, t, by omega, by omega,
          cls_pos (dI - t) (rem + 1) w (by omega) htr⟩
      · rw [heq] at hok
        exact absurd hok (by simp)
    next jI heq =>
      rcases hscan with ⟨herr, _⟩ | ⟨jI', hok, hj1, hjf, hs1, hs2, hs3⟩
      · rw [heq] at herr
        exact absurd herr (by simp)
      · rw [heq] at hok
        have hjj : jI = jI' := by injection hok
        subst hjj
        generalize hS : ((List.range' (dI - min dI ((w - 1) * (rem + 1)))
            (jI - (dI - min dI ((w - 1) * (rem + 1))))).map
            (fun j => Mapping.calculate_layer_size (dI - j) (rem + 1) w)).sum = S
            at hs1 hs2 hs3 ⊢
        simp only [Nat.zero_add] at hs1 hs2 hs3
        rw [if_pos hs2]
        have hjIb : jI ≤ min dI (w - 1) := by omega
        have hclsnew : xI - S < Mapping.calculate_layer_size (dI - jI) (rem + 1) w := by
          omega
        have hrange : dI - jI ≤ (rem + 1) * (w - 1) :=
          cls_range_of_ne_zero _ _ _ (by omega)
        have hgo := ih2 (xI - S) (dI - jI) (acc ++ [w - jI]) (by omega) hrange hclsnew
          (by omega)
          (by
            simp only [List.sum_append, List.length_append, List.sum_cons, List.sum_nil,
              List.length_cons, List.length_nil, Nat.add_zero, Nat.zero_add]
            have hmul : (acc.length + 1) * w = acc.length * w + w := by ring
            omega)
        rcases hgo with ⟨herr2, hxne⟩ | ⟨tail, hok2, hlen2, hcomp2⟩
        · left
          exact ⟨herr2, by omega⟩
        · right
          rw [List.append_assoc, List.singleton_append] at hok2
          refine ⟨(w - jI) :: tail, hok2, by simp [hlen2], ?_⟩
          intro c hc
          rcases List.mem_cons.mp hc with hc1 | hc2
          · subst hc1
            exact ⟨by omega, by omega⟩
          · exact hcomp2 c hc2

/-- Helper: a list with entries bounded by `w` sums to at most `length · w`. -/
theorem sum_le_length_mul (w : Nat) : ∀ l : List Nat,
    (∀ c ∈ l, c ≤ w) → l.sum ≤ l.length * w := by
  intro l
  induction l with
  | nil => intro _; simp
  | cons a t ih =>
    intro h
    simp only [List.sum_cons, List.length_cons]
    have h1 : a ≤ w := h a (List.mem_cons_self a t)
    have h2 := ih (fun c hc => h c (List.mem_cons_of_mem a hc))
    have hmul : (t.length + 1) * w = t.length * w + w := by ring
    omega

/-- Helper (unrank trichotomy): for any in-word index, `integer_to_vertex`
either fails with `IndexOutOfRange` — never for index 0 on a nonempty layer —
or returns a vertex of length `v` with all coordinates in `[1, w]` lying
exactly on layer `d`. -/
theorem integer_to_vertex_master (x w v d : Nat) (hw : 2 ≤ w) (hv : 1 ≤ v)
    (hx : x < usizeBound) :
    ((∃ m, Mapping.integer_to_vertex x w v d = .error (.indexOutOfRange x m)) ∧
      (x ≠ 0 ∨ Mapping.calculate_layer_size d v w = 0)) ∨
    (∃ vtx, Mapping.integer_to_vertex x w v d = .ok vtx ∧ vtx.length = v ∧
      (∀ c ∈ vtx, 1 ≤ c ∧ c ≤ w) ∧ vtx.sum + d = v * w) := by
  by_cases hentry : Mapping.calculate_layer_size d v w < usizeBound ∧
      Mapping.calculate_layer_size d v w ≤ x
  · left
    constructor
    · refine ⟨Mapping.calculate_layer_size d v w, ?_⟩
      unfold Mapping.integer_to_vertex
      dsimp only
      rw [if_pos hentry]
    · omega
  · have hxcls : x < Mapping.calculate_layer_size d v w := by omega
    have hdr : d ≤ v * (w - 1) := cls_range_of_ne_zero d v w (by omega)
    have hmaster := itvGo_master w d x
      (if Mapping.calculate_layer_size d v w < usizeBound then
        Mapping.calculate_layer_size d v w else usizeBound - 1) hw
      v x d [] hv hdr hxcls hx (by simp)
    rcases hmaster with ⟨herr, hxne⟩ | ⟨tail, hok, hlen, hcomp⟩
    · left
      constructor
      · refine ⟨(if Mapping.calculate_layer_size d v w < usizeBound then
          Mapping.calculate_layer_size d v w else usizeBound - 1), ?_⟩
        unfold Mapping.integer_to_vertex
        dsimp only
        rw [if_neg hentry]
        exact herr
      · exact Or.inl hxne
    · right
      rw [List.nil_append] at hok
      have horig : Mapping.integer_to_vertex x w v d = .ok tail := by
        unfold Mapping.integer_to_vertex
        dsimp only
        rw [if_neg hentry]
        exact hok
      have hlayer := (integer_to_vertex_ok x w v d tail horig).2
      have hsle := sum_le_length_mul w tail (fun c hc => (hcomp c hc).2)
      rw [hlen] at hsle
      exact ⟨tail, horig, hlen, hcomp, by omega⟩

/-- Helper: the conservative final attempt of the TSL retry loop (unrank at
index 0) always succeeds on a valid configuration, with a valid vertex. -/
theorem finalAttempt_ok (t : TSL.Scheme) (hw : 2 ≤ t.config.w) (hv : 1 ≤ t.config.v)
    (hls : Mapping.calculate_layer_size t.config.d0 t.config.v t.config.w ≠ 0) :
    ∃ comps, TSL.finalAttempt t = .ok comps ∧ comps.length = t.config.v ∧
      (∀ c ∈ comps, 1 ≤ c ∧ c ≤ t.config.w) ∧
      comps.sum + t.config.d0 = t.config.v * t.config.w := by
  have h := integer_to_vertex_master 0 t.config.w t.config.v t.config.d0 hw hv usizeBound_pos
  rcases h with ⟨_, hcl⟩ | ⟨vtx, hok, hlen, hcomp, hsum⟩
  · rcases hcl with h1 | h2
    · exact absurd rfl h1
    · exact absurd h2 hls
  · exact ⟨vtx, hok, hlen, hcomp, hsum⟩

/-- Helper: the TSL retry loop always lands on a valid vertex of the target
layer, for any fuel, attempt counter and in-word starting index. -/
theorem mapAttempts_ok (t : TSL.Scheme) (hw : 2 ≤ t.config.w) (hv : 1 ≤ t.config.v)
    (hls : Mapping.calculate_layer_size t.config.d0 t.config.v t.config.w ≠ 0) :
    ∀ fuel attempts current, current < usizeBound →
      ∃ comps, TSL.mapAttempts t fuel attempts current = .ok comps ∧
        comps.length = t.config.v ∧ (∀ c ∈ comps, 1 ≤ c ∧ c ≤ t.config.w) ∧
        comps.sum + t.config.d0 = t.config.v * t.config.w := by
  intro fuel
  induction fuel with
  | zero =>
    intro attempts current _
    exact finalAttempt_ok t hw hv hls
  | succ fuel ih =>
    intro attempts current hcur
    rw [TSL.mapAttempts]
    have h := integer_to_vertex_master current t.config.w t.config.v t.config.d0 hw hv hcur
    rcases h with ⟨⟨m, herr⟩, _⟩ | ⟨vtx, hok, hlen, hcomp, hsum⟩
    · rw [herr]
      by_cases h20 : 20 < attempts + 1
      · rw [if_pos h20]
        exact finalAttempt_ok t hw hv hls
      · rw [if_neg h20]
        by_cases hz : current / 2 = 0 ∧ attempts + 1 = 1
        · rw [if_pos hz]
          exact finalAttempt_ok t hw hv hls
        · rw [if_neg hz]
          exact ih (attempts + 1) (current / 2) (by omega)
    · rw [hok]
      exact ⟨vtx, rfl, hlen, hcomp, hsum⟩

/-- Helper: the mapped starting index of `TSL::map_to_layer` always fits
in the machine word. -/
theorem mappedIndex_lt (t : TSL.Scheme) (hv : 1 ≤ t.config.v) (hw : 2 ≤ t.config.w)
    (hls : t.layer_size ≠ 0) (value : Nat) : TSL.mappedIndex t value < usizeBound := by
  unfold TSL.mappedIndex
  by_cases hfit : t.layer_size < usizeBound
  · rw [if_pos hfit]
    have := Nat.mod_lt value (show 0 < t.layer_size by omega)
    omega
  · rw [if_neg hfit]
    have hmin : 0 < min (t.config.v * t.config.w) 10000 := by
      have := Nat.mul_pos (show 0 < t.config.v by omega) (show 0 < t.config.w by omega)
      omega
    have h1 := Nat.mod_lt (TSL.hashMix t.config (value % usizeBound)) hmin
    have h2 : (10000 : Nat) < usizeBound := by decide
    omega

/-- **C2.**  For every message and randomness, the TSL encoder built from a
valid configuration (`TSLConfig::with_params` followed by `TSL::new`) returns
`Ok` with a vertex of exactly `v` components, each in `{1..w}`, lying exactly
in layer `d₀` (`Σaᵢ + d₀ = v·w`); consequently the trait-level `encode` never
exercises its sink-vertex fallback and emits that same vertex. -/
theorem tsl_encode_valid (w v d0 : Nat) (cfg : TSL.Config) (t : TSL.Scheme)
    (hcfg : TSL.Config.with_params w v d0 = some cfg) (ht : TSL.Scheme.new cfg = some t)
    (H : Bytes → Bytes) (message randomness : Bytes) :
    ∃ comps, t.encodeResult H message randomness = .ok comps ∧
      comps.length = v ∧ (∀ c ∈ comps, 1 ≤ c ∧ c ≤ w) ∧ comps.sum + d0 = v * w ∧
      t.encodeScheme H message randomness = comps := by
  unfold TSL.Config.with_params at hcfg
  by_cases hc : 1 < w ∧ 0 < v ∧ d0 ≤ v * (w - 1)
  · rw [if_pos hc] at hcfg
    have hcfg' : TSL.Config.mk w v d0 = cfg := by injection hcfg
    subst hcfg'
    unfold TSL.Scheme.new at ht
    dsimp only at ht
    by_cases hz : Mapping.calculate_layer_size d0 v w = 0
    · rw [if_pos hz] at ht
      exact absurd ht (by simp)
    · rw [if_neg hz] at ht
      have ht' : TSL.Scheme.mk ⟨w, v, d0⟩ (Mapping.calculate_layer_size d0 v w) = t := by
        injection ht
      subst ht'
      have hw2 : 2 ≤ w := by omega
      have hv1 : 1 ≤ v := by omega
      obtain ⟨comps, hok, hlen, hcomp, hsum⟩ :=
        mapAttempts_ok (TSL.Scheme.mk ⟨w, v, d0⟩ (Mapping.calculate_layer_size d0 v w))
          hw2 hv1 hz 22 0
          (TSL.mappedIndex (TSL.Scheme.mk ⟨w, v, d0⟩ (Mapping.calculate_layer_size d0 v w))
            (valueOfHash (H (message ++ randomness))))
          (mappedIndex_lt _ hv1 hw2 hz _)
      have hres : (TSL.Scheme.mk ⟨w, v, d0⟩
          (Mapping.calculate_layer_size d0 v w)).encodeResult H message randomness =
          .ok comps := by
        unfold TSL.Scheme.encodeResult TSL.Scheme.map_to_layer
        dsimp only
        rw [if_neg hz]
        exact hok
      refine ⟨comps, hres, hlen, hcomp, hsum, ?_⟩
      unfold TSL.Scheme.encodeScheme
      rw [hres]
  · rw [if_neg hc] at hcfg
    exact absurd hcfg (by simp)

/-- **C2 witness.**  The TSL validity theorem at `(w, v, d₀) = (2, 2, 1)` with
a constant hash: the encoder emits the layer-1 vertex it computed, with both
components in `{1, 2}`. -/
theorem tsl_encode_valid_witness :
    ∃ comps, (TSL.Scheme.mk ⟨2, 2, 1⟩ 2).encodeResult (fun _ => []) [] [] = .ok comps ∧
      comps.length = 2 ∧ (∀ c ∈ comps, 1 ≤ c ∧ c ≤ 2) ∧ comps.sum + 1 = 2 * 2 ∧
      (TSL.Scheme.mk ⟨2, 2, 1⟩ 2).encodeScheme (fun _ => []) [] [] = comps :=
  tsl_encode_valid 2 2 1 ⟨2, 2, 1⟩ ⟨⟨2, 2, 1⟩, 2⟩ (by decide) (by decide)
    (fun _ => []) [] []

/-- Helper: `map_to_top_layers` always produces a vector of length `v` with
all components in `[1, w]` and layer at most `d0` — either a successfully
unranked vertex of the located layer, or the sink fallback in layer 0. -/
theorem mapToTopLayers_spec (w v d0 : Nat) (value : Nat) (hw : 2 ≤ w) (hv : 1 ≤ v)
    (hpos : 0 < TopLayers.totalLayerSize w v d0)
    (hall : ∀ d', d' ≤ d0 → Mapping.calculate_layer_size d' v w < usizeBound) :
    ∃ a, TopLayers.mapToTopLayers w v d0 (TopLayers.totalLayerSize w v d0) value = some a ∧
      a.length = v ∧ v * w - a.sum ≤ d0 ∧ (∀ x ∈ a, 1 ≤ x ∧ x ≤ w) := by
  unfold TopLayers.mapToTopLayers
  dsimp only
  have hidx : value % TopLayers.totalLayerSize w v d0 < TopLayers.totalLayerSize w v d0 :=
    Nat.mod_lt _ hpos
  have htot : TopLayers.totalLayerSize w v d0 =
      ((List.range (d0 + 1)).map (fun t => Mapping.calculate_layer_size (0 + t) v w)).sum := by
    unfold TopLayers.totalLayerSize
    congr 1
    apply List.map_congr_left
    intro t _
    rw [Nat.zero_add]
  obtain ⟨d, li, heq, _, hdlt, hli⟩ := scanLayersGo_lands w v (d0 + 1)
    (value % TopLayers.totalLayerSize w v d0) 0 0 (Nat.zero_le _)
    (by rw [Nat.zero_add, ← htot]; exact hidx)
  rw [heq]
  dsimp only
  cases hu : Mapping.integer_to_vertex li w v d with
  | ok comps =>
    have hliu : li < usizeBound := lt_trans hli (hall d (by omega))
    rcases integer_to_vertex_master li w v d hw hv hliu with
      ⟨⟨m, herr⟩, _⟩ | ⟨vtx, hok, hlen, hcomp, hsum⟩
    · rw [hu] at herr
      exact absurd herr (by simp)
    · rw [hu] at hok
      have hvc : comps = vtx := by injection hok
      subst hvc
      exact ⟨comps, rfl, hlen, by omega, hcomp⟩
  | error e =>
    refine ⟨List.replicate v w, rfl, List.length_replicate .., ?_, ?_⟩
    · rw [List.sum_replicate, smul_eq_mul]
      omega
    · intro x hx
      rw [List.eq_of_mem_replicate hx]
      omega

/-- **C6.**  TL1C with constructible parameters `(w, v, d0)` (in particular
`d0 + 1 ≤ w`) produces, for every message and randomness, a WOTS digest of
length `v + 1` whose first `v` entries form a vertex `a` — all components in
`{1..w}` — in some layer `d ≤ d0`, and whose last entry is the checksum
`C = d + 1 ∈ [1, d0 + 1]`, where `d` is the layer of the emitted vertex
itself. -/
theorem tl1c_digest_checksum (w v d0 : Nat) (cfg : TL1C.Config) (t : TL1C.Scheme)
    (hcfg : TL1C.Config.with_params w v d0 = some cfg)
    (ht : TL1C.Scheme.new cfg = some t) (H : Bytes → Bytes) (m r : Bytes) :
    ∃ a, t.message_to_wots_digest H m r =
        some (a ++ [HypercubeCore.calculate_layer w v a + 1]) ∧
      a.length = v ∧
      (∀ x ∈ a, 1 ≤ x ∧ x ≤ w) ∧
      HypercubeCore.calculate_layer w v a ≤ d0 ∧
      1 ≤ HypercubeCore.calculate_layer w v a + 1 ∧
      HypercubeCore.calculate_layer w v a + 1 ≤ d0 + 1 := by
  unfold TL1C.Config.with_params at hcfg
  split at hcfg
  case isFalse => exact absurd hcfg (by simp)
  case isTrue hP =>
    rw [Option.some_inj] at hcfg
    subst hcfg
    unfold TL1C.Scheme.new at ht
    split at ht
    case isFalse => exact absurd ht (by simp)
    case isTrue hchecks =>
      rw [Option.some_inj] at ht
      subst ht
      unfold TopLayers.newChecks at hchecks
      simp only [Bool.and_eq_true, decide_eq_true_eq] at hchecks
      have hpos : 0 < TopLayers.totalLayerSize w v d0 := hchecks.2
      have hall : ∀ d', d' ≤ d0 → Mapping.calculate_layer_size d' v w < usizeBound := by
        intro d' hd'
        have h1 := hchecks.1.1
        rw [List.all_eq_true] at h1
        have h2 := h1 (Mapping.calculate_layer_size d' v w)
          (List.mem_map.mpr ⟨d', List.mem_range.mpr (by omega), rfl⟩)
        simpa using h2
      obtain ⟨a, hmap, hlen, hlayer, hcomp⟩ := mapToTopLayers_spec w v d0
        (valueOfHash (H (m ++ r))) (by omega) (by omega) hpos hall
      have hl2 : HypercubeCore.calculate_layer w v a = v * w - a.sum := rfl
      refine ⟨a, ?_, hlen, hcomp, by omega, Nat.le_add_left _ _, by omega⟩
      unfold TL1C.Scheme.message_to_wots_digest TL1C.Scheme.encode_with_checksum
        TL1C.Scheme.encode TL1C.Scheme.map_to_top_layers TL1C.calculate_checksum
      dsimp only
      rw [hmap]

/-- **C6 witness.**  The TL1C digest theorem at `(w, v, d0) = (4, 4, 3)`
(the configuration of the repository's own tests) with a concrete hash. -/
theorem tl1c_digest_checksum_witness :
    ∃ a, TL1C.Scheme.message_to_wots_digest ⟨⟨4, 4, 3⟩, 35⟩ (fun _ => [9, 13]) [1] [2] =
        some (a ++ [HypercubeCore.calculate_layer 4 4 a + 1]) ∧
      a.length = 4 ∧
      (∀ x ∈ a, 1 ≤ x ∧ x ≤ 4) ∧
      HypercubeCore.calculate_layer 4 4 a ≤ 3 ∧
      1 ≤ HypercubeCore.calculate_layer 4 4 a + 1 ∧
      HypercubeCore.calculate_layer 4 4 a + 1 ≤ 3 + 1 :=
  tl1c_digest_checksum 4 4 3 ⟨4, 4, 3⟩ ⟨⟨4, 4, 3⟩, 35⟩ (by decide) (by decide)
    (fun _ => [9, 13]) [1] [2]

/-- **C7.**  TLFC's full checksum with constructible parameters returns exactly
`c` digits, the `i`-th being `((Σ_{j ≡ i mod c} 2^(j mod c)·(w − aⱼ)) mod w) + 1`,
each in `[1, w]`; and the emitted WOTS digest has length `v + c`. -/
theorem tlfc_digest_checksum (w v d0 c : Nat) (cfg : TLFC.Config) (t : TLFC.Scheme)
    (hcfg : TLFC.Config.with_params w v d0 c = some cfg)
    (ht : TLFC.Scheme.new cfg = some t) :
    (∀ components : List Nat, (∀ a ∈ components, 1 ≤ a ∧ a ≤ w) →
      (TLFC.calculate_full_checksum w c components).length = c ∧
      (∀ i, i < c → (TLFC.calculate_full_checksum w c components).getD i 0 =
        (∑ j ∈ Finset.range components.length,
          if j % c = i then 2 ^ (j % c) * (w - components.getD j 0) else 0) % w + 1) ∧
      (∀ x ∈ TLFC.calculate_full_checksum w c components, 1 ≤ x ∧ x ≤ w)) ∧
    (∀ (H : Bytes → Bytes) (m r : Bytes), ∃ digest,
      t.message_to_wots_digest H m r = some digest ∧ digest.length = v + c) := by
  unfold TLFC.Config.with_params at hcfg
  split at hcfg
  case isFalse => exact absurd hcfg (by simp)
  case isTrue hP =>
  rw [Option.some_inj] at hcfg
  subst hcfg
  unfold TLFC.Scheme.new at ht
  split at ht
  case isFalse => exact absurd ht (by simp)
  case isTrue hchecks =>
  rw [Option.some_inj] at ht
  subst ht
  obtain ⟨hw, hv, hd0, hc, hcv⟩ := hP
  have hw0 : 0 < w := by omega
  have hfold : ∀ components : List Nat,
      (TLFC.calculate_full_checksum w c components).length = c ∧
      ∀ i, i < c → (TLFC.calculate_full_checksum w c components).getD i 0 =
        (∑ j ∈ Finset.range components.length,
          if j % c = i then 2 ^ (j % c) * (w - components.getD j 0) else 0) % w + 1 := by
    intro components
    obtain ⟨hlen, hsum⟩ := tlfcFold_spec w c hc components 0 (List.replicate c 0)
      (List.length_replicate ..)
    constructor
    · unfold TLFC.calculate_full_checksum
      dsimp only
      rw [List.length_map]
      exact hlen
    · intro i hi
      have hraw := hsum i hi
      have hrepl : (List.replicate c 0).getD i 0 = 0 := by
        rw [List.getD_eq_getElem?_getD, List.getElem?_replicate, if_pos hi]
        rfl
      rw [hrepl, Nat.zero_add] at hraw
      simp only [Nat.zero_add] at hraw
      unfold TLFC.calculate_full_checksum
      dsimp only
      rw [show components.enum = components.enumFrom 0 from rfl]
      obtain ⟨val, hval⟩ : ∃ val,
          (List.foldl (fun acc p =>
            acc.set (p.1 % c) (acc.getD (p.1 % c) 0 + 2 ^ (p.1 % c) * (w - p.2)))
            (List.replicate c 0) (components.enumFrom 0))[i]? = some val :=
        ⟨_, List.getElem?_eq_getElem (by rw [hlen]; exact hi)⟩
      rw [List.getD_eq_getElem?_getD, List.getElem?_map, hval]
      simp only [Option.map_some', Option.getD_some]
      have hvaleq : val = ∑ j ∈ Finset.range components.length,
          if j % c = i then 2 ^ (j % c) * (w - components.getD j 0) else 0 := by
        rw [← hraw, List.getD_eq_getElem?_getD, hval]
        rfl
      rw [hvaleq]
  refine ⟨fun components _ => ⟨(hfold components).1, (hfold components).2, ?_⟩, ?_⟩
  · intro x hx
    unfold TLFC.calculate_full_checksum at hx
    dsimp only at hx
    rw [List.mem_map] at hx
    obtain ⟨y, _, hy⟩ := hx
    subst hy
    have := Nat.mod_lt y hw0
    omega
  · intro H m r
    unfold TopLayers.newChecks at hchecks
    simp only [Bool.and_eq_true, decide_eq_true_eq] at hchecks
    have hpos : 0 < TopLayers.totalLayerSize w v d0 := hchecks.2
    have hall : ∀ d', d' ≤ d0 → Mapping.calculate_layer_size d' v w < usizeBound := by
      intro d' hd'
      have h1 := hchecks.1.1
      rw [List.all_eq_true] at h1
      have h2 := h1 (Mapping.calculate_layer_size d' v w)
        (List.mem_map.mpr ⟨d', List.mem_range.mpr (by omega), rfl⟩)
      simpa using h2
    obtain ⟨a, hmap, hlen, _, _⟩ := mapToTopLayers_spec w v d0 (valueOfHash (H (m ++ r)))
      (by omega) (by omega) hpos hall
    refine ⟨a ++ TLFC.calculate_full_checksum w c a, ?_, ?_⟩
    · unfold TLFC.Scheme.message_to_wots_digest TLFC.Scheme.encode_with_checksum
        TLFC.Scheme.encode TLFC.Scheme.map_to_top_layers
      dsimp only
      rw [hmap]
    · rw [List.length_append, hlen, (hfold a).1]

/-- **C7 witness.**  The TLFC theorem at the repository's test configuration
`(w, v, d0, c) = (8, 4, 3, 2)`; the scenario digits for components
`(1, 1, 1, 1)` follow from the second conjunct. -/
theorem tlfc_digest_checksum_witness :
    (∀ components : List Nat, (∀ a ∈ components, 1 ≤ a ∧ a ≤ 8) →
      (TLFC.calculate_full_checksum 8 2 components).length = 2 ∧
      (∀ i, i < 2 → (TLFC.calculate_full_checksum 8 2 components).getD i 0 =
        (∑ j ∈ Finset.range components.length,
          if j % 2 = i then 2 ^ (j % 2) * (8 - components.getD j 0) else 0) % 8 + 1) ∧
      (∀ x ∈ TLFC.calculate_full_checksum 8 2 components, 1 ≤ x ∧ x ≤ 8)) ∧
    (∀ (H : Bytes → Bytes) (m r : Bytes), ∃ digest,
      TLFC.Scheme.message_to_wots_digest ⟨⟨8, 4, 3, 2⟩, 35⟩ H m r = some digest ∧
        digest.length = 4 + 2) :=
  tlfc_digest_checksum 8 4 3 2 ⟨8, 4, 3, 2⟩ ⟨⟨8, 4, 3, 2⟩, 35⟩ (by decide) (by decide)
